import Mathlib

/-!
# random-users-api-go: the fetch / aggregate / cache pipeline of `main.go`

A shallow embedding of `src/main.go`.

* Go `string` values are byte sequences (`GoString`); nothing forces them to be
  valid UTF-8.
* A Go slice `[]User` is a Lean `List User`.  The empty list stands for the nil
  slice, which is what `var users []User` followed by zero or more `append`s of
  empty batches yields in `fetchUsers` and `getUsersHandler`.
* The file system, the HTTP client and the scheduler are explicit inputs: a
  `Store` for `users_cache.json`, an `HttpExchange` per `http.Get`, and the order
  in which the sub-fetch goroutines deposit their batches.
* `encoding/json` and `unicode/utf8` are library code; the parts `main.go`
  relies on are modelled in the namespaces `Utf8` and `Json`.
-/

namespace RandomUsers

/-- One byte of a Go string or of a file. -/
abbrev Byte := Fin 256

/-- A Go `string` (and a `[]byte`): a finite sequence of bytes. -/
abbrev GoString := List Byte

/-- The bytes of an ASCII literal of the source, such as `"male"`. -/
def lit (s : String) : GoString := s.data.map fun c => Fin.ofNat c.toNat

/-- `totalRequest` of `main.go`. -/
abbrev totalRequest : Nat := 3

/-- `usersPerRequest` of `main.go`. -/
def usersPerRequest : Nat := 5000

/-- `type User struct` of `main.go`, line 20. -/
structure User where
  Gender : GoString
  FirstName : GoString
  LastName : GoString
  Email : GoString
  City : GoString
  Country : GoString
  UUID : GoString
deriving DecidableEq, Repr

/-- The zero value of `User`. -/
def User.zero : User := ⟨[], [], [], [], [], [], []⟩

/-- `type FullResponse struct` of `main.go`, line 48. -/
structure FullResponse where
  Users : List User
  MaleCount : Nat
  FemaleCount : Nat
  TotalUsers : Nat
  ExecutionTime : GoString
deriving DecidableEq, Repr

/-- A `time.Duration`: a number of nanoseconds. -/
abbrev Duration := Int

/-- The counting loop of `serveWithStats` (lines 185-192), over the remaining
records, carrying `maleCount` and `femaleCount`. -/
def countLoop : List User → Nat × Nat → Nat × Nat
  | [], acc => acc
  | u :: rest, (maleCount, femaleCount) =>
    if u.Gender = lit "male" then countLoop rest (maleCount + 1, femaleCount)
    else if u.Gender = lit "female" then countLoop rest (maleCount, femaleCount + 1)
    else countLoop rest (maleCount, femaleCount)

/-- `serveWithStats` (line 184): the payload handed to the JSON encoder of the
response writer.  `fmtSeconds d` stands for
`fmt.Sprintf("%.2f seconds", d.Seconds())`, a floating-point rendering that is
kept as a parameter. -/
def serveWithStats (fmtSeconds : Duration → GoString) (users : List User)
    (duration : Duration) : FullResponse :=
  let counts := countLoop users (0, 0)
  { Users := users
    MaleCount := counts.1
    FemaleCount := counts.2
    TotalUsers := users.length
    ExecutionTime := fmtSeconds duration }

/-! ## `unicode/utf8`: decoding and encoding of one rune -/

namespace Utf8

/-- `utf8.RuneError`, the replacement character U+FFFD. -/
def RuneError : Nat := 0xFFFD

/-- The table `first` of `unicode/utf8` together with `acceptRanges`: for a
lead byte at or above 0x80, the size of the sequence and the range the second
byte must lie in; `none` for a byte that starts no sequence. -/
def first (p0 : Nat) : Option (Nat × Nat × Nat) :=
  if p0 < 0xC2 then none
  else if p0 < 0xE0 then some (2, 0x80, 0xBF)
  else if p0 = 0xE0 then some (3, 0xA0, 0xBF)
  else if p0 < 0xED then some (3, 0x80, 0xBF)
  else if p0 = 0xED then some (3, 0x80, 0x9F)
  else if p0 < 0xF0 then some (3, 0x80, 0xBF)
  else if p0 = 0xF0 then some (4, 0x90, 0xBF)
  else if p0 < 0xF4 then some (4, 0x80, 0xBF)
  else if p0 = 0xF4 then some (4, 0x80, 0x8F)
  else none

/-- A continuation byte: `locb <= b && b <= hicb`. -/
def isCont (b : Nat) : Bool := decide (0x80 ≤ b ∧ b ≤ 0xBF)

/-- `utf8.DecodeRune`: the rune at the head of `p` and its width in bytes;
`(RuneError, 1)` on an invalid or truncated sequence, `(RuneError, 0)` on the
empty input.  The masks and shifts of the original are written with `%` and
`*`: `p0 & mask2 << 6` is `p0 % 32 * 64`, and so on. -/
def DecodeRune (p : GoString) : Nat × Nat :=
  match p with
  | [] => (RuneError, 0)
  | p0 :: t =>
    if p0.val < 0x80 then (p0.val, 1)
    else
      match first p0.val, t with
      | none, _ => (RuneError, 1)
      | some _, [] => (RuneError, 1)
      | some (sz, lo, hi), b1 :: t1 =>
        if b1.val < lo ∨ hi < b1.val then (RuneError, 1)
        else if sz ≤ 2 then (p0.val % 32 * 64 + b1.val % 64, 2)
        else
          match t1 with
          | [] => (RuneError, 1)
          | b2 :: t2 =>
            if !isCont b2.val then (RuneError, 1)
            else if sz ≤ 3 then
              (p0.val % 16 * 4096 + b1.val % 64 * 64 + b2.val % 64, 3)
            else
              match t2 with
              | [] => (RuneError, 1)
              | b3 :: _ =>
                if !isCont b3.val then (RuneError, 1)
                else
                  (p0.val % 8 * 262144 + b1.val % 64 * 4096 + b2.val % 64 * 64
                    + b3.val % 64, 4)

/-- `utf8.AppendRune` to an empty buffer: the UTF-8 encoding of the rune `r`;
a surrogate or a value above `MaxRune` is encoded as `RuneError`. -/
def EncodeRune (r : Nat) : GoString :=
  if r < 0x80 then [Fin.ofNat r]
  else if r ≤ 0x7FF then [Fin.ofNat (0xC0 + r / 64), Fin.ofNat (0x80 + r % 64)]
  else if r > 0x10FFFF ∨ (0xD800 ≤ r ∧ r ≤ 0xDFFF) then [0xEF, 0xBF, 0xBD]
  else if r ≤ 0xFFFF then
    [Fin.ofNat (0xE0 + r / 4096), Fin.ofNat (0x80 + r / 64 % 64), Fin.ofNat (0x80 + r % 64)]
  else
    [Fin.ofNat (0xF0 + r / 262144), Fin.ofNat (0x80 + r / 4096 % 64),
      Fin.ofNat (0x80 + r / 64 % 64), Fin.ofNat (0x80 + r % 64)]

/-- The loop of `utf8.Valid`: every position starts a well-formed sequence.
`fuel` bounds the number of runes; the length of the input is enough. -/
def validLoop : Nat → GoString → Bool
  | _, [] => true
  | 0, _ :: _ => false
  | fuel + 1, p0 :: t =>
    let d := DecodeRune (p0 :: t)
    if d.1 = RuneError ∧ d.2 = 1 then false
    else validLoop fuel ((p0 :: t).drop d.2)

/-- `utf8.Valid`: the bytes are a well-formed UTF-8 text. -/
def Valid (s : GoString) : Bool := validLoop s.length s

end Utf8

/-! ## `encoding/json`: the encoder for `[]User` -/

namespace Json

/-- The string `hex` of `encoding/json`: the lower-case digit for a nibble. -/
def hex (n : Nat) : Byte := (lit "0123456789abcdef").getD n 0

/-- `htmlSafeSet` of `encoding/json/tables.go`: the ASCII bytes written to a
JSON string as they are when HTML escaping is on, which is the default that
`json.MarshalIndent` uses. -/
def htmlSafeSet (b : Nat) : Bool :=
  decide (0x20 ≤ b ∧ b < 0x80 ∧ b ≠ 0x22 ∧ b ≠ 0x26 ∧ b ≠ 0x3C ∧ b ≠ 0x3E ∧ b ≠ 0x5C)

/-- The escape written by `appendString` for an ASCII byte outside
`htmlSafeSet`. -/
def escapeAscii (b : Byte) : GoString :=
  if b = 0x5C ∨ b = 0x22 then [0x5C, b]
  else if b = 0x08 then lit "\\b"
  else if b = 0x0C then lit "\\f"
  else if b = 0x0A then lit "\\n"
  else if b = 0x0D then lit "\\r"
  else if b = 0x09 then lit "\\t"
  else lit "\\u00" ++ [hex (b.val / 16), hex (b.val % 16)]

/-- The loop of `appendString` (`encoding/json/encode.go`) with `escapeHTML`
set: what is written between the two quotes.  `fuel` bounds the number of
iterations; the length of the input is enough. -/
def escapeLoop : Nat → GoString → GoString
  | _, [] => []
  | 0, _ :: _ => []
  | fuel + 1, b :: t =>
    if b.val < 0x80 then
      (if htmlSafeSet b.val then [b] else escapeAscii b) ++ escapeLoop fuel t
    else
      let d := Utf8.DecodeRune ((b :: t).take 4)
      if d.1 = Utf8.RuneError ∧ d.2 = 1 then lit "\\ufffd" ++ escapeLoop fuel t
      else if d.1 = 0x2028 ∨ d.1 = 0x2029 then
        lit "\\u202" ++ [hex (d.1 % 16)] ++ escapeLoop fuel ((b :: t).drop d.2)
      else (b :: t).take d.2 ++ escapeLoop fuel ((b :: t).drop d.2)

/-- `appendString`: a Go string as a JSON string literal. -/
def appendString (s : GoString) : GoString :=
  [0x22] ++ escapeLoop s.length s ++ [0x22]

/-- One member line of an indented object, at depth 2: four spaces, the quoted
key, a colon, a space and the value. -/
def memberLine (key : String) (v : GoString) : GoString :=
  lit "    " ++ appendString (lit key) ++ lit ": " ++ appendString v

/-- The indented encoding of one `User` as an element of the top-level array
(prefix `""`, indent two spaces): the struct fields in declaration order under
their `json` tags. -/
def encodeUser (u : User) : GoString :=
  lit "  \x7b\n"
    ++ memberLine "gender" u.Gender ++ lit ",\n"
    ++ memberLine "first_name" u.FirstName ++ lit ",\n"
    ++ memberLine "last_name" u.LastName ++ lit ",\n"
    ++ memberLine "email" u.Email ++ lit ",\n"
    ++ memberLine "city" u.City ++ lit ",\n"
    ++ memberLine "country" u.Country ++ lit ",\n"
    ++ memberLine "uuid" u.UUID ++ lit "\n  \x7d"

/-- The elements of the indented array, separated by a comma and a newline. -/
def encodeElems : List User → GoString
  | [] => []
  | [u] => encodeUser u
  | u :: v :: rest => encodeUser u ++ lit ",\n" ++ encodeElems (v :: rest)

/-- `json.MarshalIndent(users, "", "  ")` for a `[]User`: `null` for the nil
slice (the empty list), otherwise the array on lines of its own.  The call
cannot fail for this type: every field is a string. -/
def MarshalIndent (users : List User) : Except String GoString :=
  match users with
  | [] => .ok (lit "null")
  | u :: rest => .ok (lit "[\n" ++ encodeElems (u :: rest) ++ lit "\n]")

/-! ## `encoding/json`: the scanner and the decoder for `[]User` -/

/-- A JSON text as the scanner of `encoding/json` reads it.  Strings are kept
unquoted; the numeric value of a number is dropped, no field of `User` being
numeric. -/
inductive Value where
  | null
  | bool (b : Bool)
  | number
  | string (s : GoString)
  | array (elems : List Value)
  | object (members : List (GoString × Value))

/-- `isSpace` of `scanner.go`. -/
def isSpace (c : Byte) : Bool := decide (c = 0x20 ∨ c = 0x09 ∨ c = 0x0D ∨ c = 0x0A)

/-- Skip the insignificant white space before a token. -/
def skipSpace : GoString → GoString
  | [] => []
  | c :: t => if isSpace c then skipSpace t else c :: t

/-- The value of a hexadecimal digit, in either case. -/
def hexVal (c : Byte) : Option Nat :=
  if 0x30 ≤ c.val ∧ c.val ≤ 0x39 then some (c.val - 0x30)
  else if 0x61 ≤ c.val ∧ c.val ≤ 0x66 then some (c.val - 0x61 + 10)
  else if 0x41 ≤ c.val ∧ c.val ≤ 0x46 then some (c.val - 0x41 + 10)
  else none

/-- `getu4` of `decode.go`: the code unit of a `\uXXXX` escape at the head of
`s`, or `none` (the original returns -1). -/
def getu4 (s : GoString) : Option Nat :=
  match s with
  | c0 :: c1 :: h0 :: h1 :: h2 :: h3 :: _ =>
    if c0 = 0x5C ∧ c1 = 0x75 then
      match hexVal h0, hexVal h1, hexVal h2, hexVal h3 with
      | some a, some b, some c, some d => some (a * 4096 + b * 256 + c * 16 + d)
      | _, _, _, _ => none
    else none
  | _ => none

/-- `utf16.DecodeRune` applied to a first surrogate code unit and what follows
it: the code point of a valid pair, or `none` where the original returns
U+FFFD. -/
def decodeSurrogates (r1 : Nat) (r2 : Option Nat) : Option Nat :=
  match r2 with
  | some r2 =>
    if 0xD800 ≤ r1 ∧ r1 < 0xDC00 ∧ 0xDC00 ≤ r2 ∧ r2 < 0xE000 then
      some ((r1 - 0xD800) * 1024 + (r2 - 0xDC00) + 0x10000)
    else none
  | none => none

/-- The byte that a one-letter escape stands for; `none` for a letter the
scanner rejects after a backslash. -/
def simpleEscape (e : Byte) : Option Byte :=
  if e = 0x22 ∨ e = 0x5C ∨ e = 0x2F then some e
  else if e = 0x62 then some 0x08
  else if e = 0x66 then some 0x0C
  else if e = 0x6E then some 0x0A
  else if e = 0x72 then some 0x0D
  else if e = 0x74 then some 0x09
  else none

/-- Put `pre` in front of the string a scan has produced. -/
def prepend (pre : GoString) : Option (GoString × GoString) → Option (GoString × GoString)
  | some (s, rest) => some (pre ++ s, rest)
  | none => none

/-- A string literal after its opening quote: the scanner states `stateInString`,
`stateInStringEsc`, `stateInStringEscU...` together with `unquoteBytes` of
`decode.go`.  Returns the unquoted string and the input after the closing quote;
`none` on a control character, a bad escape or a missing closing quote.  Bytes
that are not UTF-8 are replaced by U+FFFD, as is an unpaired surrogate escape. -/
def unquoteLoop : Nat → GoString → Option (GoString × GoString)
  | _, [] => none
  | 0, _ :: _ => none
  | fuel + 1, c :: t =>
    if c = 0x22 then some ([], t)
    else if c = 0x5C then
      match t with
      | [] => none
      | e :: t1 =>
        if e = 0x75 then
          match getu4 (c :: e :: t1) with
          | none => none
          | some rr =>
            if 0xD800 ≤ rr ∧ rr < 0xE000 then
              match decodeSurrogates rr (getu4 (t1.drop 4)) with
              | some dec => prepend (Utf8.EncodeRune dec) (unquoteLoop fuel (t1.drop 10))
              | none => prepend (Utf8.EncodeRune Utf8.RuneError) (unquoteLoop fuel (t1.drop 4))
            else prepend (Utf8.EncodeRune rr) (unquoteLoop fuel (t1.drop 4))
        else
          match simpleEscape e with
          | some b => prepend [b] (unquoteLoop fuel t1)
          | none => none
    else if c.val < 0x20 then none
    else if c.val < 0x80 then prepend [c] (unquoteLoop fuel t)
    else
      let d := Utf8.DecodeRune (c :: t)
      prepend (Utf8.EncodeRune d.1) (unquoteLoop fuel ((c :: t).drop d.2))

/-- A string literal after its opening quote. -/
def scanString (s : GoString) : Option (GoString × GoString) := unquoteLoop s.length s

/-- Skip a run of decimal digits. -/
def skipDigits : GoString → GoString
  | [] => []
  | c :: t => if 0x30 ≤ c.val ∧ c.val ≤ 0x39 then skipDigits t else c :: t

/-- At least one digit, then any number of them (`stateDot`, `stateESign`). -/
def digits1 : GoString → Option GoString
  | [] => none
  | c :: t => if 0x30 ≤ c.val ∧ c.val ≤ 0x39 then some (skipDigits t) else none

/-- The optional exponent of a number (`stateE`, `stateESign`, `stateE0`). -/
def scanExponent : GoString → Option GoString
  | [] => some []
  | c :: t =>
    if c = 0x65 ∨ c = 0x45 then
      match t with
      | [] => none
      | g :: t1 => if g = 0x2B ∨ g = 0x2D then digits1 t1 else digits1 (g :: t1)
    else some (c :: t)

/-- The optional fraction and exponent of a number (`state0`, `stateDot`,
`stateDot0`). -/
def scanFraction : GoString → Option GoString
  | [] => some []
  | c :: t =>
    if c = 0x2E then
      match digits1 t with
      | some r => scanExponent r
      | none => none
    else scanExponent (c :: t)

/-- The integer part of a number after an optional minus sign (`stateNeg`,
`state1`, `state0`). -/
def scanInt : GoString → Option GoString
  | [] => none
  | c :: t =>
    if c = 0x30 then scanFraction t
    else if 0x31 ≤ c.val ∧ c.val ≤ 0x39 then scanFraction (skipDigits t)
    else none

/-- A number literal; returns the input after it. -/
def scanNumber : GoString → Option GoString
  | [] => none
  | c :: t => if c = 0x2D then scanInt t else scanInt (c :: t)

/-- The input after the literal word `w`, if the input starts with it. -/
def scanWord (w : GoString) (s : GoString) : Option GoString :=
  if s.take w.length = w then some (s.drop w.length) else none

/-- `maxNestingDepth` of `scanner.go`. -/
def maxNestingDepth : Nat := 10000

mutual

/-- One JSON value, white space before it included (`stateBeginValue`).
`depth` is the number of further nesting levels the scanner allows; `fuel`
bounds the recursion and one more than the length of the input is enough. -/
def scanValue : Nat → Nat → GoString → Option (Value × GoString)
  | 0, _, _ => none
  | fuel + 1, depth, s =>
    match skipSpace s with
    | [] => none
    | c :: t =>
      if c = 0x7B then
        match depth with
        | 0 => none
        | depth + 1 =>
          match skipSpace t with
          | [] => none
          | c1 :: t1 =>
            if c1 = 0x7D then some (Value.object [], t1)
            else
              match scanMembers fuel depth (c1 :: t1) with
              | some (m, r) => some (Value.object m, r)
              | none => none
      else if c = 0x5B then
        match depth with
        | 0 => none
        | depth + 1 =>
          match skipSpace t with
          | [] => none
          | c1 :: t1 =>
            if c1 = 0x5D then some (Value.array [], t1)
            else
              match scanElems fuel depth (c1 :: t1) with
              | some (l, r) => some (Value.array l, r)
              | none => none
      else if c = 0x22 then
        match scanString t with
        | some (str, r) => some (Value.string str, r)
        | none => none
      else if c = 0x2D ∨ (0x30 ≤ c.val ∧ c.val ≤ 0x39) then
        match scanNumber (c :: t) with
        | some r => some (Value.number, r)
        | none => none
      else if c = 0x74 then
        match scanWord (lit "true") (c :: t) with
        | some r => some (Value.bool true, r)
        | none => none
      else if c = 0x66 then
        match scanWord (lit "false") (c :: t) with
        | some r => some (Value.bool false, r)
        | none => none
      else if c = 0x6E then
        match scanWord (lit "null") (c :: t) with
        | some r => some (Value.null, r)
        | none => none
      else none

/-- The members of a non-empty object from the opening quote of a key up to
and including the closing brace (`stateBeginString`, `stateEndValue`). -/
def scanMembers : Nat → Nat → GoString → Option (List (GoString × Value) × GoString)
  | 0, _, _ => none
  | fuel + 1, depth, s =>
    match s with
    | [] => none
    | q :: t =>
      if q = 0x22 then
        match scanString t with
        | none => none
        | some (key, r) =>
          match skipSpace r with
          | [] => none
          | colon :: r1 =>
            if colon = 0x3A then
              match scanValue fuel depth r1 with
              | none => none
              | some (v, r2) =>
                match skipSpace r2 with
                | [] => none
                | sep :: r3 =>
                  if sep = 0x7D then some ([(key, v)], r3)
                  else if sep = 0x2C then
                    match scanMembers fuel depth (skipSpace r3) with
                    | some (m, r4) => some ((key, v) :: m, r4)
                    | none => none
                  else none
            else none
      else none

/-- The elements of a non-empty array up to and including the closing
bracket. -/
def scanElems : Nat → Nat → GoString → Option (List Value × GoString)
  | 0, _, _ => none
  | fuel + 1, depth, s =>
    match scanValue fuel depth s with
    | none => none
    | some (v, r) =>
      match skipSpace r with
      | [] => none
      | sep :: r1 =>
        if sep = 0x5D then some ([v], r1)
        else if sep = 0x2C then
          match scanElems fuel depth r1 with
          | some (l, r2) => some (v :: l, r2)
          | none => none
        else none

end

/-- The exported fields of `User`, in declaration order. -/
inductive Field where
  | gender | firstName | lastName | email | city | country | uuid
deriving DecidableEq, Repr

/-- The `json` tag of a field of `User`. -/
def Field.tag : Field → GoString
  | .gender => lit "gender"
  | .firstName => lit "first_name"
  | .lastName => lit "last_name"
  | .email => lit "email"
  | .city => lit "city"
  | .country => lit "country"
  | .uuid => lit "uuid"

/-- The fields of `User` as `typeFields` lists them. -/
def fields : List Field :=
  [.gender, .firstName, .lastName, .email, .city, .country, .uuid]

/-- `foldRune` of `fold.go`, the least rune of the case-folding orbit of `r`,
for the two orbits that reach ASCII: U+017F (long s) folds to `S` and U+212A
(Kelvin sign) to `K`.  Every other rune at or above 0x80 folds to a rune at or
above 0x80, which no tag of `User` contains, so it is left as it is. -/
def foldRune (r : Nat) : Nat :=
  if r = 0x17F then 0x53 else if r = 0x212A then 0x4B else r

/-- The loop of `appendFoldedName` of `fold.go`. -/
def foldLoop : Nat → GoString → GoString
  | _, [] => []
  | 0, _ :: _ => []
  | fuel + 1, c :: t =>
    if c.val < 0x80 then
      (if 0x61 ≤ c.val ∧ c.val ≤ 0x7A then Fin.ofNat (c.val - 0x20) else c) :: foldLoop fuel t
    else
      let d := Utf8.DecodeRune (c :: t)
      Utf8.EncodeRune (foldRune d.1) ++ foldLoop fuel ((c :: t).drop d.2)

/-- `foldName` of `fold.go`: the case-folded form of an object key. -/
def foldName (s : GoString) : GoString := foldLoop s.length s

/-- The field an object key selects (`decodeState.object`): the field whose
tag is the key, otherwise the field whose folded tag is the folded key. -/
def findField (key : GoString) : Option Field :=
  match fields.find? fun f => f.tag = key with
  | some f => some f
  | none => fields.find? fun f => foldName f.tag = foldName key

/-- Assign a string to a field of a `User`. -/
def setField (u : User) (f : Field) (s : GoString) : User :=
  match f with
  | .gender => { u with Gender := s }
  | .firstName => { u with FirstName := s }
  | .lastName => { u with LastName := s }
  | .email => { u with Email := s }
  | .city => { u with City := s }
  | .country => { u with Country := s }
  | .uuid => { u with UUID := s }

/-- Decode one object member into a `User`: a key that selects no field is
skipped, a string is stored, `null` leaves the field as it is, any other value
is an `UnmarshalTypeError` (`none`). -/
def storeMember (u : User) (kv : GoString × Value) : Option User :=
  match findField kv.1 with
  | none => some u
  | some f =>
    match kv.2 with
    | .string s => some (setField u f s)
    | .null => some u
    | _ => none

/-- Decode the members of an object one after the other, a later member
overriding an earlier one. -/
def storeMembers : User → List (GoString × Value) → Option User
  | u, [] => some u
  | u, kv :: rest =>
    match storeMember u kv with
    | some u1 => storeMembers u1 rest
    | none => none

/-- Decode a JSON value into a fresh element of a `[]User`: an object member
by member, `null` as the zero value, anything else an `UnmarshalTypeError`. -/
def decodeUser : Value → Option User
  | .object m => storeMembers User.zero m
  | .null => some User.zero
  | _ => none

/-- Decode the elements of an array in order. -/
def decodeElems : List Value → Option (List User)
  | [] => some []
  | v :: rest =>
    match decodeUser v, decodeElems rest with
    | some u, some us => some (u :: us)
    | _, _ => none

/-- Decode a JSON value into a `[]User`: an array element by element, `null`
as the nil slice, anything else an `UnmarshalTypeError`. -/
def decodeUsers : Value → Option (List User)
  | .array l => decodeElems l
  | .null => some []
  | _ => none

/-- `json.Unmarshal(data, &users)` for `var users []User`: `checkValid` (the
whole input is one JSON text) and then the decoding; an error of either phase is
the error returned. -/
def Unmarshal (data : GoString) : Except String (List User) :=
  match scanValue (data.length + 1) maxNestingDepth data with
  | none => .error "invalid JSON syntax"
  | some (v, rest) =>
    match skipSpace rest with
    | [] =>
      match decodeUsers v with
      | some users => .ok users
      | none => .error "json: cannot unmarshal value into Go value"
    | _ :: _ => .error "invalid character after top-level value"

end Json

/-! ## The snapshot store -/

/-- What `os.Stat` and `os.ReadFile` see of `users_cache.json`. -/
inductive FileState where
  | absent
  | unreadable
  | content (data : GoString)
deriving DecidableEq, Repr

/-- The snapshot store: the state of the file `outputFile` and whether
`os.WriteFile` on it succeeds.  A write that fails is taken to leave the file
as it was. -/
structure Store where
  file : FileState
  writable : Bool
deriving DecidableEq, Repr

/-- `fileExists(outputFile)` (line 179): `os.Stat` reports no error. -/
def fileExists (st : Store) : Bool :=
  match st.file with
  | .absent => false
  | _ => true

/-- `os.ReadFile(outputFile)`. -/
def readFile (st : Store) : Except String GoString :=
  match st.file with
  | .absent => .error "open users_cache.json: no such file or directory"
  | .unreadable => .error "read users_cache.json: error"
  | .content data => .ok data

/-- `os.WriteFile(outputFile, data, 0644)`: the error, if any, and the store
afterwards. -/
def writeFile (st : Store) (data : GoString) : Except String Unit × Store :=
  if st.writable then (.ok (), { st with file := .content data })
  else (.error "open users_cache.json: permission denied", st)

/-- `saveUsersToFile` (line 154): the store after the call.  Both errors are
logged and swallowed. -/
def saveUsersToFile (st : Store) (users : List User) : Store :=
  match Json.MarshalIndent users with
  | .error _ => st
  | .ok data => (writeFile st data).2

/-- `loadUsersFromFile` (line 166). -/
def loadUsersFromFile (st : Store) : Except String (List User) :=
  match readFile st with
  | .error e => .error e
  | .ok data =>
    match Json.Unmarshal data with
    | .error e => .error e
    | .ok users => .ok users

/-! ## The record fetcher -/

/-- The struct of `name` in an entry of `apiResponse`. -/
structure ApiName where
  First : GoString
  Last : GoString
deriving DecidableEq, Repr

/-- The struct of `location` in an entry of `apiResponse`. -/
structure ApiLocation where
  City : GoString
  Country : GoString
deriving DecidableEq, Repr

/-- The struct of `login` in an entry of `apiResponse`. -/
structure ApiLogin where
  UUID : GoString
deriving DecidableEq, Repr

/-- One entry of `Results` in `apiResponse` (line 31). -/
structure ApiItem where
  Gender : GoString
  Name : ApiName
  Email : GoString
  Location : ApiLocation
  Login : ApiLogin
deriving DecidableEq, Repr

/-- `type apiResponse struct` of `main.go`, line 30. -/
structure apiResponse where
  Results : List ApiItem
deriving DecidableEq, Repr

/-- What one `http.Get` to the upstream generator comes back with: a transport
error, or a response with its status code and the outcome of `io.ReadAll` on
its body (`none` when reading fails). -/
inductive HttpExchange where
  | getError
  | response (status : Nat) (body : Option GoString)
deriving DecidableEq, Repr

/-- `http.StatusOK`. -/
def StatusOK : Nat := 200

/-- The struct literal of lines 141-149: the `User` built from one entry. -/
def normalize (item : ApiItem) : User :=
  { Gender := item.Gender
    FirstName := item.Name.First
    LastName := item.Name.Last
    Email := item.Email
    City := item.Location.City
    Country := item.Location.Country
    UUID := item.Login.UUID }

/-- The loop of `fetchUsers` (lines 139-150) over the remaining entries,
carrying `users`. -/
def normalizeLoop : List ApiItem → List User → List User
  | [], users => users
  | item :: rest, users => normalizeLoop rest (users ++ [normalize item])

/-- `fetchUsers` (line 116).  `unmarshal` stands for
`json.Unmarshal(body, &apiResp)`; `count` only goes into the query string of
the request, whose answer is the exchange `x`. -/
def fetchUsers (unmarshal : GoString → Except String apiResponse) (_count : Nat)
    (x : HttpExchange) : Except String (List User) :=
  match x with
  | .getError => .error "error on GET"
  | .response status body =>
    if status ≠ StatusOK then .error "non-OK response"
    else
      match body with
      | none => .error "error reading body"
      | some data =>
        match unmarshal data with
        | .error _ => .error "error unmarshaling JSON"
        | .ok apiResp => .ok (normalizeLoop apiResp.Results [])

/-! ## The request handler, sequentially -/

/-- What the outside world does during one request: the answer to each of the
`totalRequest` upstream calls, the order in which the sub-fetch goroutines
finish (successful ones deposit their batch in `userChannel` in that order),
and the duration `time.Since(start)` reports. -/
structure Request where
  exchanges : Fin totalRequest → HttpExchange
  arrival : List (Fin totalRequest)
  elapsed : Duration

/-- The collection loop `for batch := range userChannel` (lines 104-107) over
the sub-fetches in the order they finish, carrying `allUsers`: a sub-fetch that
failed has deposited nothing. -/
def collect (outcomes : Fin totalRequest → Except String (List User)) :
    List (Fin totalRequest) → List User → List User
  | [], allUsers => allUsers
  | i :: rest, allUsers =>
    match outcomes i with
    | .ok batch => collect outcomes rest (allUsers ++ batch)
    | .error _ => collect outcomes rest allUsers

/-- What one call of `getUsersHandler` leaves behind: the payload written to
the response, the snapshot store, what was handed to `saveUsersToFile` (if it
was called) and the number of `fetchUsers` calls made. -/
structure Outcome where
  response : FullResponse
  store : Store
  saved : Option (List User)
  fetches : Nat
deriving DecidableEq, Repr

/-- The parameters that stand for library calls: the rendering of the elapsed
time and the decoding of the upstream payload. -/
structure Lib where
  fmtSeconds : Duration → GoString
  unmarshalApi : GoString → Except String apiResponse

/-- The outcome of the sub-fetch `i` of a request. -/
def subFetch (lib : Lib) (req : Request) (i : Fin totalRequest) : Except String (List User) :=
  fetchUsers lib.unmarshalApi usersPerRequest (req.exchanges i)

/-- Lines 80-113 of `getUsersHandler`: the fetch cycle, the save and the
response. -/
def fetchCycle (lib : Lib) (st : Store) (req : Request) : Outcome :=
  let allUsers := collect (subFetch lib req) req.arrival []
  { response := serveWithStats lib.fmtSeconds allUsers req.elapsed
    store := saveUsersToFile st allUsers
    saved := some allUsers
    fetches := totalRequest }

/-- `getUsersHandler` (line 65). -/
def getUsersHandler (lib : Lib) (st : Store) (req : Request) : Outcome :=
  if fileExists st then
    match loadUsersFromFile st with
    | .ok cachedUsers =>
      { response := serveWithStats lib.fmtSeconds cachedUsers req.elapsed
        store := st
        saved := none
        fetches := 0 }
    | .error _ => fetchCycle lib st req
  else fetchCycle lib st req

/-- Successive calls of `getUsersHandler`, each on the store the previous one
left: the outcomes in order. -/
def serveAll (lib : Lib) : Store → List Request → List Outcome
  | _, [] => []
  | st, req :: rest =>
    let o := getUsersHandler lib st req
    o :: serveAll lib o.store rest

/-! ## The fetch cycle, goroutine by goroutine

Lines 82-107 of `getUsersHandler` as a transition system.  The goroutines are the
handler itself, the `totalRequest` sub-fetch tasks and the one that waits on the
`WaitGroup` and closes `userChannel`.  Each of them is a sequential program, so
a step is determined by which goroutine the scheduler runs next; a goroutine
that is blocked, not started or finished does not move. -/

namespace Fanout

/-- Where the handler goroutine is: in the launch loop with `i` tasks started,
in the collection loop, or past it. -/
inductive MainPc where
  | launching (i : Nat)
  | collecting
  | collected
deriving DecidableEq, Repr

/-- Where a sub-fetch goroutine is: not started, before `fetchUsers` has
returned, before its deferred `wg.Done()`, or finished. -/
inductive TaskPc where
  | idle
  | fetching
  | returning
  | finished
deriving DecidableEq, Repr

/-- Where the closing goroutine is: not started, in `wg.Wait()`, before
`close(userChannel)`, or finished. -/
inductive CloserPc where
  | idle
  | waiting
  | woke
  | done
deriving DecidableEq, Repr

/-- The shared state of the fetch cycle.  `deposits` and `arrival` are history
variables: how many batches each task has sent, and the tasks in the order in
which their `fetchUsers` call was dealt with. -/
structure State where
  main : MainPc
  task : Fin totalRequest → TaskPc
  closer : CloserPc
  wg : Nat
  chan : List (List User)
  closed : Bool
  allUsers : List User
  deposits : Fin totalRequest → Nat
  arrival : List (Fin totalRequest)
  panicked : Bool

/-- The goroutine the scheduler picks. -/
inductive Goroutine where
  | main
  | task (i : Fin totalRequest)
  | closer
deriving DecidableEq, Repr

/-- The state at line 82: nothing started, `userChannel` empty and open. -/
def init : State :=
  { main := .launching 0
    task := fun _ => .idle
    closer := .idle
    wg := 0
    chan := []
    closed := false
    allUsers := []
    deposits := fun _ => 0
    arrival := []
    panicked := false }

/-- One step of the handler goroutine: `wg.Add(1)` and `go` for the next task
(lines 85-97), then the start of the closing goroutine (line 99), then the
`range` loop (lines 105-107), which takes the oldest batch of the channel,
blocks on an empty open channel and ends on an empty closed one. -/
def stepMain (s : State) : State :=
  match s.main with
  | .launching i =>
    if h : i < totalRequest then
      { s with
        wg := s.wg + 1
        task := Function.update s.task ⟨i, h⟩ .fetching
        main := .launching (i + 1) }
    else { s with closer := .waiting, main := .collecting }
  | .collecting =>
    match s.chan with
    | batch :: rest => { s with chan := rest, allUsers := s.allUsers ++ batch }
    | [] => if s.closed then { s with main := .collected } else s
  | .collected => s

/-- One step of the sub-fetch goroutine `i` (lines 87-96): `fetchUsers` returns
and the batch is sent, or the failure is logged; then the deferred
`wg.Done()`.  A send on a closed channel and a negative counter panic; a send on
a full channel blocks. -/
def stepTask (outcomes : Fin totalRequest → Except String (List User)) (s : State)
    (i : Fin totalRequest) : State :=
  match s.task i with
  | .idle => s
  | .fetching =>
    match outcomes i with
    | .error _ =>
      { s with task := Function.update s.task i .returning, arrival := s.arrival ++ [i] }
    | .ok batch =>
      if s.closed then { s with panicked := true }
      else if s.chan.length < totalRequest then
        { s with
          chan := s.chan ++ [batch]
          deposits := Function.update s.deposits i (s.deposits i + 1)
          task := Function.update s.task i .returning
          arrival := s.arrival ++ [i] }
      else s
  | .returning =>
    if s.wg = 0 then { s with panicked := true }
    else { s with wg := s.wg - 1, task := Function.update s.task i .finished }
  | .finished => s

/-- One step of the closing goroutine (lines 99-102): `wg.Wait()` returns once
the counter is zero, then `close(userChannel)`. -/
def stepCloser (s : State) : State :=
  match s.closer with
  | .idle => s
  | .waiting => if s.wg = 0 then { s with closer := .woke } else s
  | .woke => { s with closed := true, closer := .done }
  | .done => s

/-- One step of the goroutine `g`; nothing moves after a panic. -/
def step (outcomes : Fin totalRequest → Except String (List User)) (s : State)
    (g : Goroutine) : State :=
  if s.panicked then s
  else
    match g with
    | .main => stepMain s
    | .task i => stepTask outcomes s i
    | .closer => stepCloser s

/-- The state after the schedule `sched`, from `s`. -/
def run (outcomes : Fin totalRequest → Except String (List User)) (s : State) :
    List Goroutine → State
  | [] => s
  | g :: sched => run outcomes (step outcomes s g) sched

/-- The number of steps a task still has to take. -/
def TaskPc.todo : TaskPc → Nat
  | .idle => 2
  | .fetching => 2
  | .returning => 1
  | .finished => 0

/-- Whether a task holds a unit of the `WaitGroup` counter. -/
def TaskPc.active : TaskPc → Nat
  | .fetching => 1
  | .returning => 1
  | _ => 0

/-- Whether `fetchUsers` of a task has returned. -/
def TaskPc.arrived : TaskPc → Bool
  | .returning => true
  | .finished => true
  | _ => false

/-- The number of tasks the launch loop has started. -/
def launched : MainPc → Nat
  | .launching i => i
  | _ => totalRequest

/-- The handler is still in the launch loop. -/
def isLaunching : MainPc → Bool
  | .launching _ => true
  | _ => false

/-- The number of tasks that hold a unit of the `WaitGroup` counter. -/
def activeCount (task : Fin totalRequest → TaskPc) : Nat :=
  (task 0).active + (task 1).active + (task 2).active

/-- The steps the handler goroutine still has to take, receptions apart. -/
def mainTodo : MainPc → Nat
  | .launching i => totalRequest - i + 2
  | .collecting => 1
  | .collected => 0

/-- The steps the closing goroutine still has to take. -/
def closerTodo : CloserPc → Nat
  | .idle => 2
  | .waiting => 2
  | .woke => 1
  | .done => 0

/-- A bound on the number of steps left: each step that changes the state
lowers it. -/
def measure (s : State) : Nat :=
  mainTodo s.main + 2 * ((s.task 0).todo + (s.task 1).todo + (s.task 2).todo)
    + closerTodo s.closer + s.chan.length

end Fanout

/-- The batch a sub-fetch has produced, if it succeeded. -/
def batchOf (outcomes : Fin totalRequest → Except String (List User))
    (i : Fin totalRequest) : Option (List User) :=
  match outcomes i with
  | .ok batch => some batch
  | .error _ => none

/-- What holds in every state of the fetch cycle that a schedule can reach. -/
structure Fanout.Inv (outcomes : Fin totalRequest → Except String (List User))
    (s : Fanout.State) : Prop where
  noPanic : s.panicked = false
  launched_le : Fanout.launched s.main ≤ totalRequest
  idle_iff : ∀ j : Fin totalRequest, s.task j = .idle ↔ Fanout.launched s.main ≤ j.val
  closer_idle : s.closer = .idle ↔ Fanout.isLaunching s.main = true
  wg_eq : s.wg = Fanout.activeCount s.task
  woke : s.closer = .woke ∨ s.closer = .done → ∀ j, s.task j = .finished
  closed_iff : s.closed = true ↔ s.closer = .done
  collected : s.main = .collected → s.closed = true ∧ s.chan = []
  deposits_eq : ∀ j, s.deposits j
    = if (s.task j).arrived = true ∧ (batchOf outcomes j).isSome = true then 1 else 0
  arrival_nodup : s.arrival.Nodup
  arrival_mem : ∀ j, j ∈ s.arrival ↔ (s.task j).arrived = true
  merged : s.allUsers ++ s.chan.flatten = (s.arrival.filterMap (batchOf outcomes)).flatten
  room : s.chan.length ≤ s.arrival.length

/-! ## Vocabulary of the properties -/

/-- The gender of a record is exactly `"male"`. -/
def isMale (u : User) : Bool := decide (u.Gender = lit "male")

/-- The gender of a record is exactly `"female"`. -/
def isFemale (u : User) : Bool := decide (u.Gender = lit "female")

/-- The gender of a record is neither `"male"` nor `"female"`. -/
def isOther (u : User) : Bool := !isMale u && !isFemale u

/-- The number of records a sub-fetch contributes: the size of its batch, zero
if it failed. -/
def batchSize (outcomes : Fin totalRequest → Except String (List User))
    (i : Fin totalRequest) : Nat :=
  match outcomes i with
  | .ok batch => batch.length
  | .error _ => 0

/-- Every field of the record is well-formed UTF-8. -/
def User.wellFormed (u : User) : Bool :=
  Utf8.Valid u.Gender && Utf8.Valid u.FirstName && Utf8.Valid u.LastName
    && Utf8.Valid u.Email && Utf8.Valid u.City && Utf8.Valid u.Country && Utf8.Valid u.UUID

/-- The loop of `coerce`. -/
def coerceLoop : Nat → GoString → GoString
  | _, [] => []
  | 0, _ :: _ => []
  | fuel + 1, b :: t =>
    let d := Utf8.DecodeRune (b :: t)
    if d.1 = Utf8.RuneError ∧ d.2 = 1 then [0xEF, 0xBF, 0xBD] ++ coerceLoop fuel t
    else (b :: t).take d.2 ++ coerceLoop fuel ((b :: t).drop d.2)

/-- A string coerced to valid UTF-8 the way `encoding/json` does it: each byte
that belongs to no well-formed sequence is replaced by the encoding of
U+FFFD. -/
def coerce (s : GoString) : GoString := coerceLoop s.length s

/-- A record with every field coerced to valid UTF-8. -/
def User.coerced (u : User) : User :=
  { Gender := coerce u.Gender
    FirstName := coerce u.FirstName
    LastName := coerce u.LastName
    Email := coerce u.Email
    City := coerce u.City
    Country := coerce u.Country
    UUID := coerce u.UUID }

/-- The JSON value that the scanner reads from the encoding of a record. -/
def Json.userValue (u : User) : Value :=
  .object
    [ (lit "gender", .string (coerce u.Gender)),
      (lit "first_name", .string (coerce u.FirstName)),
      (lit "last_name", .string (coerce u.LastName)),
      (lit "email", .string (coerce u.Email)),
      (lit "city", .string (coerce u.City)),
      (lit "country", .string (coerce u.Country)),
      (lit "uuid", .string (coerce u.UUID)) ]

/-! ## Concrete inputs of the examples -/

/-- An entry of an upstream payload with the given gender and empty other
fields. -/
def demoItem (gender : GoString) : ApiItem :=
  ⟨gender, ⟨[], []⟩, [], ⟨[], []⟩, ⟨[]⟩⟩

/-- The decoding of the upstream payload on two one-entry payloads; any other
input is taken as undecodable. -/
def demoUnmarshal (data : GoString) : Except String apiResponse :=
  if data = lit "\x7b\"results\":[\x7b\"gender\":\"male\"\x7d]\x7d" then
    .ok ⟨[demoItem (lit "male")]⟩
  else if data = lit "\x7b\"results\":[\x7b\"gender\":\"female\"\x7d]\x7d" then
    .ok ⟨[demoItem (lit "female")]⟩
  else .error "unexpected payload"

/-- Library parameters of the examples. -/
def demoLib : Lib :=
  { fmtSeconds := fun _ => lit "0.00 seconds"
    unmarshalApi := demoUnmarshal }

/-- An upstream answer 200 carrying one male record. -/
def maleExchange : HttpExchange :=
  .response 200 (some (lit "\x7b\"results\":[\x7b\"gender\":\"male\"\x7d]\x7d"))

/-- An upstream answer 200 carrying one female record. -/
def femaleExchange : HttpExchange :=
  .response 200 (some (lit "\x7b\"results\":[\x7b\"gender\":\"female\"\x7d]\x7d"))

/-- A request whose first sub-fetch gets a male record, whose second gets a
female record and whose third gets a 503, finishing in the given order. -/
def demoRequest (arrival : List (Fin totalRequest)) : Request :=
  { exchanges := fun i =>
      if i = 0 then maleExchange else if i = 1 then femaleExchange else .response 503 none
    arrival := arrival
    elapsed := 0 }

/-- A request all of whose sub-fetches fail in transport. -/
def downRequest : Request :=
  { exchanges := fun _ => .getError
    arrival := [0, 1, 2]
    elapsed := 0 }

/-- A store with no snapshot file, in a writable directory. -/
def emptyStore : Store := ⟨.absent, true⟩

/-- The record with the given gender and empty other fields. -/
def demoUser (gender : GoString) : User := ⟨gender, [], [], [], [], [], []⟩

/-- A store holding a compact snapshot of one male record; writes to it fail. -/
def snapshotStore : Store :=
  ⟨.content (lit "[\x7b\"gender\":\"male\"\x7d]"), false⟩

/-- A store whose snapshot file is not JSON. -/
def corruptStore : Store := ⟨.content (lit "not json"), true⟩

/-- A schedule of the fetch cycle: the handler launches everything, the tasks
run to their end in the given order, the channel is closed, the handler
collects. -/
def demoSchedule (order : List (Fin totalRequest)) : List Fanout.Goroutine :=
  [.main, .main, .main, .main]
    ++ (order.map fun i => [Fanout.Goroutine.task i, Fanout.Goroutine.task i]).flatten
    ++ [.closer, .closer, .main, .main, .main]

/-- A record whose gender is the single byte 0xFF, which is not UTF-8. -/
def rawUser : User := ⟨[0xFF], [], [], [], [], [], []⟩

/-! ## Properties -/

/-! ### The stats reporter -/

theorem lit_male_ne_female : lit "male" ≠ lit "female" := by decide

theorem countLoop_eq (us : List User) (m f : Nat) :
    countLoop us (m, f) = (m + us.countP isMale, f + us.countP isFemale) := by
  induction us generalizing m f with
  | nil => simp [countLoop]
  | cons u rest ih =>
    unfold countLoop
    by_cases hm : u.Gender = lit "male"
    · have hf : ¬ u.Gender = lit "female" := fun h => lit_male_ne_female (hm.symm.trans h)
      simp [hm, ih, isMale, isFemale, List.countP_cons, lit_male_ne_female]
      omega
    · by_cases hf : u.Gender = lit "female"
      · simp [hm, hf, ih, isMale, isFemale, List.countP_cons, lit_male_ne_female.symm]
        omega
      · simp [hm, hf, ih, isMale, isFemale, List.countP_cons]

theorem count_partition (us : List User) :
    us.countP isMale + us.countP isFemale + us.countP isOther = us.length := by
  induction us with
  | nil => simp
  | cons u rest ih =>
    simp only [List.countP_cons, List.length_cons]
    by_cases hm : u.Gender = lit "male"
    · have hf : ¬ u.Gender = lit "female" := fun h => lit_male_ne_female (hm.symm.trans h)
      simp [isMale, isFemale, isOther, hm, lit_male_ne_female]
      omega
    · by_cases hf : u.Gender = lit "female"
      · simp [isMale, isFemale, isOther, hf, lit_male_ne_female.symm]
        omega
      · simp [isMale, isFemale, isOther, hm, hf]
        omega

theorem serveWithStats_counts (fmt : Duration → GoString) (us : List User) (d : Duration) :
    (serveWithStats fmt us d).Users = us
      ∧ (serveWithStats fmt us d).MaleCount = us.countP isMale
      ∧ (serveWithStats fmt us d).FemaleCount = us.countP isFemale
      ∧ (serveWithStats fmt us d).TotalUsers = us.length := by
  unfold serveWithStats
  rw [countLoop_eq]
  simp

/-- C2: for every record sequence and every duration, the payload of
`serveWithStats` carries the records themselves in the same order, the number of
records whose gender is exactly "male", the number whose gender is exactly
"female" and the length of the sequence; for the empty sequence the three
counts are 0. -/
theorem serveWithStats_payload (fmt : Duration → GoString) (us : List User) (d : Duration) :
    ((serveWithStats fmt us d).Users = us
      ∧ (serveWithStats fmt us d).MaleCount = us.countP (fun u => decide (u.Gender = lit "male"))
      ∧ (serveWithStats fmt us d).FemaleCount
          = us.countP (fun u => decide (u.Gender = lit "female"))
      ∧ (serveWithStats fmt us d).TotalUsers = us.length)
    ∧ ((serveWithStats fmt [] d).MaleCount = 0
      ∧ (serveWithStats fmt [] d).FemaleCount = 0
      ∧ (serveWithStats fmt [] d).TotalUsers = 0) := by
  refine ⟨?_, ?_⟩
  · exact serveWithStats_counts fmt us d
  · simp [serveWithStats, countLoop]

/-- C1: on the cache-hit path and on the live-fetch path alike, the response of
`getUsersHandler` has `total_users` equal to the length of `users` and
`male_count + female_count` at most `total_users`; the records whose gender is
neither "male" nor "female" make up the difference, counted in the total and in
neither gender count. -/
theorem getUsersHandler_stats (lib : Lib) (st : Store) (req : Request) :
    (getUsersHandler lib st req).response.TotalUsers
        = (getUsersHandler lib st req).response.Users.length
      ∧ (getUsersHandler lib st req).response.MaleCount
          + (getUsersHandler lib st req).response.FemaleCount
        ≤ (getUsersHandler lib st req).response.TotalUsers
      ∧ (getUsersHandler lib st req).response.MaleCount
          = (getUsersHandler lib st req).response.Users.countP isMale
      ∧ (getUsersHandler lib st req).response.FemaleCount
          = (getUsersHandler lib st req).response.Users.countP isFemale
      ∧ (getUsersHandler lib st req).response.MaleCount
          + (getUsersHandler lib st req).response.FemaleCount
          + (getUsersHandler lib st req).response.Users.countP isOther
        = (getUsersHandler lib st req).response.TotalUsers := by
  have key : ∀ us : List User,
      (serveWithStats lib.fmtSeconds us req.elapsed).TotalUsers
          = (serveWithStats lib.fmtSeconds us req.elapsed).Users.length
        ∧ (serveWithStats lib.fmtSeconds us req.elapsed).MaleCount
            + (serveWithStats lib.fmtSeconds us req.elapsed).FemaleCount
          ≤ (serveWithStats lib.fmtSeconds us req.elapsed).TotalUsers
        ∧ (serveWithStats lib.fmtSeconds us req.elapsed).MaleCount
            = (serveWithStats lib.fmtSeconds us req.elapsed).Users.countP isMale
        ∧ (serveWithStats lib.fmtSeconds us req.elapsed).FemaleCount
            = (serveWithStats lib.fmtSeconds us req.elapsed).Users.countP isFemale
        ∧ (serveWithStats lib.fmtSeconds us req.elapsed).MaleCount
            + (serveWithStats lib.fmtSeconds us req.elapsed).FemaleCount
            + (serveWithStats lib.fmtSeconds us req.elapsed).Users.countP isOther
          = (serveWithStats lib.fmtSeconds us req.elapsed).TotalUsers := by
    intro us
    obtain ⟨h1, h2, h3, h4⟩ := serveWithStats_counts lib.fmtSeconds us req.elapsed
    have hp := count_partition us
    rw [h1, h2, h3, h4]
    refine ⟨rfl, ?_, rfl, rfl, hp⟩
    omega
  unfold getUsersHandler
  split
  · split
    · exact key _
    · exact key _
  · exact key _

/-! ### The record fetcher -/

theorem normalizeLoop_eq (items : List ApiItem) (users : List User) :
    normalizeLoop items users = users ++ items.map normalize := by
  induction items generalizing users with
  | nil => simp [normalizeLoop]
  | cons item rest ih => simp [normalizeLoop, ih]

/-- C10: when the upstream answers 200 and its payload decodes to an
`apiResponse` with results `r`, `fetchUsers` returns a batch of the length of
`r` whose i-th record takes gender, name.first, name.last, email,
location.city, location.country and login.uuid of `r[i]`, whatever count was
requested. -/
theorem fetchUsers_normalizes (unmarshal : GoString → Except String apiResponse)
    (count : Nat) (data : GoString) (resp : apiResponse)
    (h : unmarshal data = .ok resp) :
    ∃ batch, fetchUsers unmarshal count (.response StatusOK (some data)) = .ok batch
      ∧ batch.length = resp.Results.length
      ∧ ∀ (i : Nat) (hi : i < resp.Results.length), ∃ u, batch[i]? = some u
          ∧ u.Gender = resp.Results[i].Gender
          ∧ u.FirstName = resp.Results[i].Name.First
          ∧ u.LastName = resp.Results[i].Name.Last
          ∧ u.Email = resp.Results[i].Email
          ∧ u.City = resp.Results[i].Location.City
          ∧ u.Country = resp.Results[i].Location.Country
          ∧ u.UUID = resp.Results[i].Login.UUID := by
  refine ⟨resp.Results.map normalize, ?_, by simp, ?_⟩
  · simp [fetchUsers, h, normalizeLoop_eq]
  · intro i hi
    refine ⟨normalize resp.Results[i], ?_, rfl, rfl, rfl, rfl, rfl, rfl, rfl⟩
    simp [List.getElem?_map, List.getElem?_eq_getElem hi]

/-- C10, at a concrete payload: one entry, 5000 requested. -/
theorem fetchUsers_normalizes_witness :
    (fun _ => Except.ok ⟨[⟨lit "male", ⟨lit "a", lit "b"⟩, lit "e", ⟨lit "c", lit "d"⟩, ⟨lit "u"⟩⟩]⟩
        : GoString → Except String apiResponse) [] =
      .ok ⟨[⟨lit "male", ⟨lit "a", lit "b"⟩, lit "e", ⟨lit "c", lit "d"⟩, ⟨lit "u"⟩⟩]⟩
    ∧ ∃ batch, fetchUsers
        (fun _ => .ok ⟨[⟨lit "male", ⟨lit "a", lit "b"⟩, lit "e", ⟨lit "c", lit "d"⟩, ⟨lit "u"⟩⟩]⟩)
        usersPerRequest (.response StatusOK (some [])) = .ok batch
      ∧ batch.length = 1
      ∧ ∀ (i : Nat)
          (hi : i < (apiResponse.mk
            [⟨lit "male", ⟨lit "a", lit "b"⟩, lit "e", ⟨lit "c", lit "d"⟩, ⟨lit "u"⟩⟩]).Results.length),
          ∃ u, batch[i]? = some u
          ∧ u.Gender = (apiResponse.mk
            [⟨lit "male", ⟨lit "a", lit "b"⟩, lit "e", ⟨lit "c", lit "d"⟩, ⟨lit "u"⟩⟩]).Results[i].Gender
          ∧ u.FirstName = (apiResponse.mk
            [⟨lit "male", ⟨lit "a", lit "b"⟩, lit "e", ⟨lit "c", lit "d"⟩, ⟨lit "u"⟩⟩]).Results[i].Name.First
          ∧ u.LastName = (apiResponse.mk
            [⟨lit "male", ⟨lit "a", lit "b"⟩, lit "e", ⟨lit "c", lit "d"⟩, ⟨lit "u"⟩⟩]).Results[i].Name.Last
          ∧ u.Email = (apiResponse.mk
            [⟨lit "male", ⟨lit "a", lit "b"⟩, lit "e", ⟨lit "c", lit "d"⟩, ⟨lit "u"⟩⟩]).Results[i].Email
          ∧ u.City = (apiResponse.mk
            [⟨lit "male", ⟨lit "a", lit "b"⟩, lit "e", ⟨lit "c", lit "d"⟩, ⟨lit "u"⟩⟩]).Results[i].Location.City
          ∧ u.Country = (apiResponse.mk
            [⟨lit "male", ⟨lit "a", lit "b"⟩, lit "e", ⟨lit "c", lit "d"⟩, ⟨lit "u"⟩⟩]).Results[i].Location.Country
          ∧ u.UUID = (apiResponse.mk
            [⟨lit "male", ⟨lit "a", lit "b"⟩, lit "e", ⟨lit "c", lit "d"⟩, ⟨lit "u"⟩⟩]).Results[i].Login.UUID :=
  ⟨rfl, fetchUsers_normalizes _ usersPerRequest []
    ⟨[⟨lit "male", ⟨lit "a", lit "b"⟩, lit "e", ⟨lit "c", lit "d"⟩, ⟨lit "u"⟩⟩]⟩ rfl⟩

/-! ### The handler: cache hit and cache miss -/

theorem fileExists_of_load {st : Store} {us : List User} (h : loadUsersFromFile st = .ok us) :
    fileExists st = true := by
  unfold loadUsersFromFile readFile at h
  unfold fileExists
  cases hf : st.file <;> simp [hf] at h ⊢

theorem getUsersHandler_hit (lib : Lib) (st : Store) (req : Request) (us : List User)
    (h : loadUsersFromFile st = .ok us) :
    getUsersHandler lib st req =
      { response := serveWithStats lib.fmtSeconds us req.elapsed
        store := st
        saved := none
        fetches := 0 } := by
  simp [getUsersHandler, fileExists_of_load h, h]

theorem getUsersHandler_miss (lib : Lib) (st : Store) (req : Request) (e : String)
    (h : loadUsersFromFile st = .error e) :
    getUsersHandler lib st req = fetchCycle lib st req := by
  unfold getUsersHandler
  split
  · simp [h]
  · rfl

theorem collect_eq (outcomes : Fin totalRequest → Except String (List User))
    (l : List (Fin totalRequest)) (acc : List User) :
    collect outcomes l acc = acc ++ (l.filterMap (batchOf outcomes)).flatten := by
  induction l generalizing acc with
  | nil => simp [collect]
  | cons i rest ih =>
    unfold collect
    cases h : outcomes i with
    | ok batch => simp [ih, batchOf, h, List.filterMap_cons]
    | error e => simp [ih, batchOf, h, List.filterMap_cons]

theorem length_flatten_batches (outcomes : Fin totalRequest → Except String (List User))
    (l : List (Fin totalRequest)) :
    ((l.filterMap (batchOf outcomes)).flatten).length = (l.map (batchSize outcomes)).sum := by
  induction l with
  | nil => simp
  | cons i rest ih =>
    cases h : outcomes i with
    | ok batch => simp [batchOf, batchSize, h, List.filterMap_cons, ih]
    | error e => simp [batchOf, batchSize, h, List.filterMap_cons, ih]

theorem sum_batchSize_of_perm (outcomes : Fin totalRequest → Except String (List User))
    (l : List (Fin totalRequest)) (h : l.Perm (List.finRange totalRequest)) :
    (l.map (batchSize outcomes)).sum
      = batchSize outcomes 0 + batchSize outcomes 1 + batchSize outcomes 2 := by
  rw [(h.map (batchSize outcomes)).sum_eq]
  have : List.finRange totalRequest = [0, 1, 2] := by decide
  rw [this]
  simp
  omega

theorem fetchCycle_users (lib : Lib) (st : Store) (req : Request) :
    (fetchCycle lib st req).response.Users
      = (req.arrival.filterMap (batchOf (subFetch lib req))).flatten := by
  simp [fetchCycle, serveWithStats, collect_eq]

theorem fetchCycle_total (lib : Lib) (st : Store) (req : Request) :
    (fetchCycle lib st req).response.TotalUsers
      = (fetchCycle lib st req).response.Users.length := by
  simp [fetchCycle, serveWithStats]

/-! ### The merge policy -/

theorem three_distinct_cases : ∀ a b c : Fin totalRequest, a ≠ b → a ≠ c → b ≠ c →
    [a, b, c] ∈ ([[0, 1, 2], [0, 2, 1], [1, 0, 2], [1, 2, 0], [2, 0, 1], [2, 1, 0]]
      : List (List (Fin totalRequest))) := by
  decide

theorem perm_three_cases (l : List (Fin totalRequest))
    (h : l.Perm (List.finRange totalRequest)) :
    l ∈ ([[0, 1, 2], [0, 2, 1], [1, 0, 2], [1, 2, 0], [2, 0, 1], [2, 1, 0]]
      : List (List (Fin totalRequest))) := by
  have hlen : l.length = 3 := by simpa using h.length_eq
  have hnd : l.Nodup := h.nodup_iff.mpr (List.nodup_finRange _)
  match l, hlen, hnd with
  | [a, b, c], _, hnd =>
    simp only [List.nodup_cons, List.mem_cons, List.mem_singleton, not_or, List.not_mem_nil,
      not_false_eq_true, List.nodup_nil, and_true] at hnd
    exact three_distinct_cases a b c hnd.1.1 hnd.1.2 hnd.2

theorem filter_ne_cases : ∀ i j k : Fin totalRequest, i ≠ j → i ≠ k → j ≠ k →
    ∀ l ∈ ([[0, 1, 2], [0, 2, 1], [1, 0, 2], [1, 2, 0], [2, 0, 1], [2, 1, 0]]
      : List (List (Fin totalRequest))),
    l.filter (fun x => decide (x ≠ i)) = [j, k] ∨ l.filter (fun x => decide (x ≠ i)) = [k, j] := by
  decide

theorem filterMap_filter_ne {β : Type} (f : Fin totalRequest → Option β) (i : Fin totalRequest)
    (hi : f i = none) (l : List (Fin totalRequest)) :
    l.filterMap f = (l.filter (fun x => decide (x ≠ i))).filterMap f := by
  induction l with
  | nil => rfl
  | cons a rest ih =>
    by_cases ha : a = i
    · subst ha
      simp [List.filterMap_cons, hi, ih]
    · simp [List.filterMap_cons, List.filter_cons, ha, ih]

/-- C5: on a cache miss, whatever the outcomes of the 3 sub-fetches and the
order in which they finish, the aggregate that `getUsersHandler` responds with
is the concatenation of exactly the successful batches; its length is the sum
of their sizes, a failed sub-fetch counting for zero; if exactly one fails it
holds the records of the other two only; if all fail it is empty and the
response still comes, with `total_users` 0. -/
theorem getUsersHandler_merge (lib : Lib) (st : Store) (req : Request) (e : String)
    (hmiss : loadUsersFromFile st = .error e)
    (harr : req.arrival.Perm (List.finRange totalRequest)) :
    (getUsersHandler lib st req).response.Users
        = (req.arrival.filterMap (batchOf (subFetch lib req))).flatten
      ∧ (getUsersHandler lib st req).response.Users.length
        = batchSize (subFetch lib req) 0 + batchSize (subFetch lib req) 1
          + batchSize (subFetch lib req) 2
      ∧ (∀ i err, subFetch lib req i = .error err → batchSize (subFetch lib req) i = 0)
      ∧ (∀ i j k err bj bk, i ≠ j → i ≠ k → j ≠ k →
          subFetch lib req i = .error err → subFetch lib req j = .ok bj →
          subFetch lib req k = .ok bk →
          (getUsersHandler lib st req).response.Users = bj ++ bk
            ∨ (getUsersHandler lib st req).response.Users = bk ++ bj)
      ∧ ((∀ i, ∃ err, subFetch lib req i = .error err) →
          (getUsersHandler lib st req).response.Users = []
            ∧ (getUsersHandler lib st req).response.TotalUsers = 0) := by
  rw [getUsersHandler_miss lib st req e hmiss]
  have hu := fetchCycle_users lib st req
  refine ⟨hu, ?_, ?_, ?_, ?_⟩
  · rw [hu, length_flatten_batches, sum_batchSize_of_perm _ _ harr]
  · intro i err h
    simp [batchSize, h]
  · intro i j k err bj bk hij hik hjk hi hj hk
    rw [hu]
    have hbi : batchOf (subFetch lib req) i = none := by simp [batchOf, hi]
    have hbj : batchOf (subFetch lib req) j = some bj := by simp [batchOf, hj]
    have hbk : batchOf (subFetch lib req) k = some bk := by simp [batchOf, hk]
    rw [filterMap_filter_ne _ i hbi]
    rcases filter_ne_cases i j k hij hik hjk _ (perm_three_cases _ harr) with h | h <;>
      rw [h] <;> simp [List.filterMap_cons, hbj, hbk]
  · intro hall
    have hnone : ∀ i, batchOf (subFetch lib req) i = none := by
      intro i
      obtain ⟨err, h⟩ := hall i
      simp [batchOf, h]
    have hnil : (fetchCycle lib st req).response.Users = [] := by
      rw [hu]
      have : req.arrival.filterMap (batchOf (subFetch lib req)) = [] := by
        rw [List.filterMap_eq_nil_iff]
        intro a _
        exact hnone a
      simp [this]
    refine ⟨hnil, ?_⟩
    rw [fetchCycle_total, hnil]
    rfl

/-- C5, at a concrete request: no snapshot file, the second sub-fetch finishing
first and the third failing with a 503. -/
theorem getUsersHandler_merge_witness :
    loadUsersFromFile emptyStore = .error "open users_cache.json: no such file or directory"
      ∧ (demoRequest [1, 0, 2]).arrival.Perm (List.finRange totalRequest)
      ∧ (getUsersHandler demoLib emptyStore (demoRequest [1, 0, 2])).response.Users
        = ((demoRequest [1, 0, 2]).arrival.filterMap
            (batchOf (subFetch demoLib (demoRequest [1, 0, 2])))).flatten
      ∧ (getUsersHandler demoLib emptyStore (demoRequest [1, 0, 2])).response.Users.length
        = batchSize (subFetch demoLib (demoRequest [1, 0, 2])) 0
          + batchSize (subFetch demoLib (demoRequest [1, 0, 2])) 1
          + batchSize (subFetch demoLib (demoRequest [1, 0, 2])) 2 :=
  ⟨rfl, by decide,
    (getUsersHandler_merge demoLib emptyStore (demoRequest [1, 0, 2]) _ rfl (by decide)).1,
    (getUsersHandler_merge demoLib emptyStore (demoRequest [1, 0, 2]) _ rfl (by decide)).2.1⟩

/-- C8, amended: two runs of the fetch cycle whose sub-fetches return the same
outcomes merge to aggregates that are permutations of one another, hence of the
same length, and to the same sequence when the sub-fetches finish in the same
order. -/
theorem getUsersHandler_merge_perm (lib : Lib) (st1 st2 : Store) (req1 req2 : Request)
    (e1 e2 : String)
    (h1 : loadUsersFromFile st1 = .error e1) (h2 : loadUsersFromFile st2 = .error e2)
    (hout : ∀ i, subFetch lib req1 i = subFetch lib req2 i)
    (ha1 : req1.arrival.Perm (List.finRange totalRequest))
    (ha2 : req2.arrival.Perm (List.finRange totalRequest)) :
    ((getUsersHandler lib st1 req1).response.Users).Perm
        (getUsersHandler lib st2 req2).response.Users
      ∧ (getUsersHandler lib st1 req1).response.Users.length
        = (getUsersHandler lib st2 req2).response.Users.length
      ∧ (req1.arrival = req2.arrival →
          (getUsersHandler lib st1 req1).response.Users
            = (getUsersHandler lib st2 req2).response.Users) := by
  rw [getUsersHandler_miss lib st1 req1 e1 h1, getUsersHandler_miss lib st2 req2 e2 h2,
    fetchCycle_users, fetchCycle_users]
  have hfun : subFetch lib req1 = subFetch lib req2 := funext hout
  rw [hfun]
  have hperm : ((req1.arrival.filterMap (batchOf (subFetch lib req2))).flatten).Perm
      ((req2.arrival.filterMap (batchOf (subFetch lib req2))).flatten) :=
    ((ha1.trans ha2.symm).filterMap _).flatten
  refine ⟨hperm, hperm.length_eq, ?_⟩
  intro h
  rw [h]

/-- C8, amended, at two concrete runs with the same outcomes and different
completion orders. -/
theorem getUsersHandler_merge_perm_witness :
    ((getUsersHandler demoLib emptyStore (demoRequest [0, 1, 2])).response.Users).Perm
        (getUsersHandler demoLib emptyStore (demoRequest [2, 1, 0])).response.Users
      ∧ (getUsersHandler demoLib emptyStore (demoRequest [0, 1, 2])).response.Users.length
        = (getUsersHandler demoLib emptyStore (demoRequest [2, 1, 0])).response.Users.length :=
  ⟨(getUsersHandler_merge_perm demoLib emptyStore emptyStore (demoRequest [0, 1, 2])
      (demoRequest [2, 1, 0]) _ _ rfl rfl (fun _ => rfl) (by decide) (by decide)).1,
    (getUsersHandler_merge_perm demoLib emptyStore emptyStore (demoRequest [0, 1, 2])
      (demoRequest [2, 1, 0]) _ _ rfl rfl (fun _ => rfl) (by decide) (by decide)).2.1⟩

/-! ### The snapshot cache in the handler -/

theorem serveAll_hit (lib : Lib) (st : Store) (us : List User)
    (h : loadUsersFromFile st = .ok us) (reqs : List Request) :
    serveAll lib st reqs = reqs.map fun req =>
      { response := serveWithStats lib.fmtSeconds us req.elapsed
        store := st
        saved := none
        fetches := 0 } := by
  induction reqs with
  | nil => rfl
  | cons req rest ih =>
    simp only [serveAll, List.map_cons, getUsersHandler_hit lib st req us h, ih]

/-- C3: when the store holds a snapshot that loads as the K records `us`, each
of any number of successive calls of `getUsersHandler` answers with exactly
those records in the same order (and `total_users` K), makes no upstream fetch,
does not call the save and leaves the store as it was. -/
theorem getUsersHandler_idempotent (lib : Lib) (st : Store) (us : List User)
    (reqs : List Request) (h : loadUsersFromFile st = .ok us) :
    (serveAll lib st reqs).length = reqs.length
      ∧ ∀ o ∈ serveAll lib st reqs,
          o.response.Users = us ∧ o.response.TotalUsers = us.length ∧ o.fetches = 0
            ∧ o.saved = none ∧ o.store = st := by
  rw [serveAll_hit lib st us h]
  refine ⟨by simp, ?_⟩
  intro o ho
  rw [List.mem_map] at ho
  obtain ⟨req, _, rfl⟩ := ho
  simp [serveWithStats]

/-- C3, at a concrete store and three successive requests. -/
theorem getUsersHandler_idempotent_witness :
    loadUsersFromFile snapshotStore = .ok [demoUser (lit "male")]
      ∧ (serveAll demoLib snapshotStore [downRequest, demoRequest [0, 1, 2], downRequest]).length
        = 3
      ∧ ∀ o ∈ serveAll demoLib snapshotStore [downRequest, demoRequest [0, 1, 2], downRequest],
          o.response.Users = [demoUser (lit "male")]
            ∧ o.response.TotalUsers = [demoUser (lit "male")].length ∧ o.fetches = 0
            ∧ o.saved = none ∧ o.store = snapshotStore :=
  ⟨rfl, getUsersHandler_idempotent demoLib snapshotStore [demoUser (lit "male")]
    [downRequest, demoRequest [0, 1, 2], downRequest] rfl⟩

theorem saveUsersToFile_writable (st : Store) (users : List User) (hw : st.writable = true) :
    ∃ data, Json.MarshalIndent users = .ok data
      ∧ saveUsersToFile st users = { st with file := .content data } := by
  cases users with
  | nil => exact ⟨_, rfl, by simp [saveUsersToFile, Json.MarshalIndent, writeFile, hw]⟩
  | cons u rest => exact ⟨_, rfl, by simp [saveUsersToFile, Json.MarshalIndent, writeFile, hw]⟩

/-- C4: when the snapshot file is present but cannot be read or parsed,
`getUsersHandler` does not fail: it makes the 3 sub-fetches, hands the merged
aggregate to the save, which replaces the file by the serialization of that
aggregate when the write succeeds, and responds with the aggregate.  Response,
fetches and saved aggregate are those of the same request on a store without
the file, and so is the store when the write succeeds. -/
theorem getUsersHandler_fallback (lib : Lib) (st : Store) (req : Request) (e : String)
    (hpresent : fileExists st = true) (hbad : loadUsersFromFile st = .error e) :
    (getUsersHandler lib st req).fetches = totalRequest
      ∧ (getUsersHandler lib st req).response
        = serveWithStats lib.fmtSeconds (collect (subFetch lib req) req.arrival []) req.elapsed
      ∧ (getUsersHandler lib st req).saved = some (collect (subFetch lib req) req.arrival [])
      ∧ (st.writable = true →
          ∃ data, Json.MarshalIndent (collect (subFetch lib req) req.arrival []) = .ok data
            ∧ (getUsersHandler lib st req).store = { st with file := .content data })
      ∧ (getUsersHandler lib st req).response
        = (getUsersHandler lib { st with file := .absent } req).response
      ∧ (getUsersHandler lib st req).fetches
        = (getUsersHandler lib { st with file := .absent } req).fetches
      ∧ (getUsersHandler lib st req).saved
        = (getUsersHandler lib { st with file := .absent } req).saved
      ∧ (st.writable = true →
          (getUsersHandler lib st req).store
            = (getUsersHandler lib { st with file := .absent } req).store) := by
  have habs : getUsersHandler lib { st with file := .absent } req
      = fetchCycle lib { st with file := .absent } req := by
    simp [getUsersHandler, fileExists]
  have hmiss : getUsersHandler lib st req = fetchCycle lib st req := by
    simp [getUsersHandler, hpresent, hbad]
  rw [hmiss, habs]
  refine ⟨rfl, rfl, rfl, ?_, rfl, rfl, rfl, ?_⟩
  · intro hw
    exact saveUsersToFile_writable st _ hw
  · intro hw
    obtain ⟨data, _, h1⟩ := saveUsersToFile_writable st
      (collect (subFetch lib req) req.arrival []) hw
    obtain ⟨data2, _, h2⟩ := saveUsersToFile_writable { st with file := .absent }
      (collect (subFetch lib req) req.arrival []) hw
    have hd : data = data2 := by
      have : Except.ok data = (Except.ok data2 : Except String GoString) := by
        rw [← ‹Json.MarshalIndent _ = Except.ok data›, ← ‹Json.MarshalIndent _ = Except.ok data2›]
      injection this
    simp only [fetchCycle, h1, h2, hd]

/-- C4, at a store whose file is not JSON. -/
theorem getUsersHandler_fallback_witness :
    fileExists corruptStore = true
      ∧ loadUsersFromFile corruptStore = .error "invalid JSON syntax"
      ∧ (getUsersHandler demoLib corruptStore (demoRequest [0, 1, 2])).fetches = totalRequest
      ∧ (getUsersHandler demoLib corruptStore (demoRequest [0, 1, 2])).saved
        = some (collect (subFetch demoLib (demoRequest [0, 1, 2]))
            (demoRequest [0, 1, 2]).arrival []) :=
  ⟨rfl, rfl,
    (getUsersHandler_fallback demoLib corruptStore (demoRequest [0, 1, 2]) _ rfl rfl).1,
    (getUsersHandler_fallback demoLib corruptStore (demoRequest [0, 1, 2]) _ rfl rfl).2.2.1⟩

/-- C6, refuted: with all three sub-fetches failing, `getUsersHandler` hands the
empty aggregate to the save and the snapshot file becomes `null`, from which
the next request is served with no record and no fetch; with one of three
failing, the two remaining batches are stored. -/
theorem snapshot_partial_counterexample :
    (∀ i, subFetch demoLib downRequest i = .error "error on GET")
      ∧ (getUsersHandler demoLib emptyStore downRequest).saved = some []
      ∧ (getUsersHandler demoLib emptyStore downRequest).store = ⟨.content (lit "null"), true⟩
      ∧ (getUsersHandler demoLib ⟨.content (lit "null"), true⟩ (demoRequest [0, 1, 2])).response.Users
        = []
      ∧ (getUsersHandler demoLib ⟨.content (lit "null"), true⟩ (demoRequest [0, 1, 2])).fetches = 0
      ∧ subFetch demoLib (demoRequest [0, 1, 2]) 2 = .error "non-OK response"
      ∧ (getUsersHandler demoLib emptyStore (demoRequest [0, 1, 2])).saved
        = some [demoUser (lit "male"), demoUser (lit "female")]
      ∧ (getUsersHandler demoLib emptyStore (demoRequest [0, 1, 2])).store.file
        = .content ((Json.MarshalIndent
            [demoUser (lit "male"), demoUser (lit "female")]).toOption.getD []) := by
  exact ⟨fun _ => rfl, rfl, rfl, rfl, rfl, rfl, rfl, rfl⟩

/-- C6, amended: whenever `getUsersHandler` calls the save, what it hands over
is the whole merged aggregate of that request's cycle, the one it responds
with: the concatenation, in order of completion, of the batches of the
sub-fetches that succeeded, each of them in one piece.  When the write succeeds
the file holds the serialization of that aggregate. -/
theorem getUsersHandler_saves_merged (lib : Lib) (st : Store) (req : Request)
    (agg : List User) (hs : (getUsersHandler lib st req).saved = some agg) :
    agg = (req.arrival.filterMap (batchOf (subFetch lib req))).flatten
      ∧ (getUsersHandler lib st req).response.Users = agg
      ∧ (getUsersHandler lib st req).fetches = totalRequest
      ∧ (∀ i b, i ∈ req.arrival → subFetch lib req i = .ok b → List.IsInfix b agg)
      ∧ (st.writable = true →
          ∃ data, Json.MarshalIndent agg = .ok data
            ∧ (getUsersHandler lib st req).store = { st with file := .content data }) := by
  have hcyc : getUsersHandler lib st req = fetchCycle lib st req := by
    cases hl : loadUsersFromFile st with
    | ok us =>
      rw [getUsersHandler_hit lib st req us hl] at hs
      simp at hs
    | error e => exact getUsersHandler_miss lib st req e hl
  rw [hcyc] at hs ⊢
  have hagg : agg = collect (subFetch lib req) req.arrival [] := by
    simp only [fetchCycle, Option.some.injEq] at hs
    exact hs.symm
  have hflat : agg = (req.arrival.filterMap (batchOf (subFetch lib req))).flatten := by
    rw [hagg, collect_eq]
    rfl
  refine ⟨hflat, ?_, rfl, ?_, ?_⟩
  · rw [fetchCycle_users, hflat]
  · intro i b hi hb
    rw [hflat]
    apply List.infix_of_mem_flatten
    rw [List.mem_filterMap]
    exact ⟨i, hi, by simp [batchOf, hb]⟩
  · intro hw
    obtain ⟨data, hd, hst⟩ := saveUsersToFile_writable st agg hw
    exact ⟨data, hd, by simp only [fetchCycle, ← hagg, hst]⟩

/-- C6, amended, at a concrete request. -/
theorem getUsersHandler_saves_merged_witness :
    (getUsersHandler demoLib emptyStore (demoRequest [1, 0, 2])).saved
        = some [demoUser (lit "female"), demoUser (lit "male")]
      ∧ (getUsersHandler demoLib emptyStore (demoRequest [1, 0, 2])).response.Users
        = [demoUser (lit "female"), demoUser (lit "male")]
      ∧ (getUsersHandler demoLib emptyStore (demoRequest [1, 0, 2])).fetches = totalRequest :=
  ⟨rfl,
    (getUsersHandler_saves_merged demoLib emptyStore (demoRequest [1, 0, 2])
      [demoUser (lit "female"), demoUser (lit "male")] rfl).2.1,
    (getUsersHandler_saves_merged demoLib emptyStore (demoRequest [1, 0, 2])
      [demoUser (lit "female"), demoUser (lit "male")] rfl).2.2.1⟩

/-- C8, refuted: the same three outcomes, a male record from the first
sub-fetch, a female record from the second and a failure of the third, merge to
two different sequences when the first two finish in the two possible orders;
both orders are reached by a schedule of the goroutines. -/
theorem merge_order_counterexample :
    (∀ i, subFetch demoLib (demoRequest [0, 1, 2]) i = subFetch demoLib (demoRequest [1, 0, 2]) i)
      ∧ (getUsersHandler demoLib emptyStore (demoRequest [0, 1, 2])).response.Users
        = [demoUser (lit "male"), demoUser (lit "female")]
      ∧ (getUsersHandler demoLib emptyStore (demoRequest [1, 0, 2])).response.Users
        = [demoUser (lit "female"), demoUser (lit "male")]
      ∧ (getUsersHandler demoLib emptyStore (demoRequest [0, 1, 2])).response.Users
        ≠ (getUsersHandler demoLib emptyStore (demoRequest [1, 0, 2])).response.Users
      ∧ (Fanout.run (subFetch demoLib (demoRequest [])) Fanout.init
          (demoSchedule [0, 1, 2])).main = .collected
      ∧ (Fanout.run (subFetch demoLib (demoRequest [])) Fanout.init
          (demoSchedule [0, 1, 2])).allUsers = [demoUser (lit "male"), demoUser (lit "female")]
      ∧ (Fanout.run (subFetch demoLib (demoRequest [])) Fanout.init
          (demoSchedule [1, 0, 2])).main = .collected
      ∧ (Fanout.run (subFetch demoLib (demoRequest [])) Fanout.init
          (demoSchedule [1, 0, 2])).allUsers = [demoUser (lit "female"), demoUser (lit "male")] := by
  have h1 : (getUsersHandler demoLib emptyStore (demoRequest [0, 1, 2])).response.Users
      = [demoUser (lit "male"), demoUser (lit "female")] := rfl
  have h2 : (getUsersHandler demoLib emptyStore (demoRequest [1, 0, 2])).response.Users
      = [demoUser (lit "female"), demoUser (lit "male")] := rfl
  refine ⟨fun _ => rfl, h1, h2, ?_, rfl, rfl, rfl, rfl⟩
  rw [h1, h2]
  decide

/-! ### The fetch cycle as a transition system -/

namespace Fanout

theorem fin3_cases : ∀ i : Fin totalRequest, i = 0 ∨ i = 1 ∨ i = 2 := by decide

theorem activeCount_update (task : Fin totalRequest → TaskPc) (i : Fin totalRequest)
    (v : TaskPc) :
    activeCount (Function.update task i v) + (task i).active = activeCount task + v.active := by
  rcases fin3_cases i with rfl | rfl | rfl <;> simp [activeCount, Function.update] <;> omega

theorem inv_init (o : Fin totalRequest → Except String (List User)) : Inv o init := by
  constructor <;> simp [init, launched, isLaunching, activeCount, TaskPc.active, TaskPc.arrived]

theorem inv_stepMain (o : Fin totalRequest → Except String (List User)) (s : State)
    (h : Inv o s) : Inv o (stepMain s) := by
  unfold stepMain
  cases hm : s.main with
  | launching i =>
    have hle := h.launched_le
    have hidle := h.idle_iff
    have hci := h.closer_idle
    simp only [hm, launched, isLaunching] at hle hidle hci
    by_cases hi : i < totalRequest
    · simp only [hi, dite_true]
      have hti : s.task ⟨i, hi⟩ = .idle := (hidle ⟨i, hi⟩).2 (le_refl _)
      refine ⟨h.noPanic, ?_, ?_, ?_, ?_, ?_, h.closed_iff, ?_, ?_, h.arrival_nodup, ?_, h.merged, h.room⟩
      · simp only [launched]; omega
      · intro j
        simp only [launched, Function.update_apply]
        by_cases hj : j = ⟨i, hi⟩
        · subst hj; simp
        · have : j.val ≠ i := fun hv => hj (Fin.ext hv)
          simp only [hj, if_false, hidle j]
          omega
      · simp [isLaunching, hci]
      · have := activeCount_update s.task ⟨i, hi⟩ .fetching
        rw [hti] at this
        simp only [TaskPc.active] at this
        simp only [h.wg_eq]
        omega
      · intro hw
        rw [hci.2 trivial] at hw
        simp at hw
      · simp
      · intro j
        rw [h.deposits_eq j]
        by_cases hj : j = ⟨i, hi⟩
        · subst hj; simp [hti, TaskPc.arrived]
        · simp [Function.update_apply, hj]
      · intro j
        rw [h.arrival_mem j]
        by_cases hj : j = ⟨i, hi⟩
        · subst hj; simp [hti, TaskPc.arrived]
        · simp [Function.update_apply, hj]
    · simp only [hi, dite_false]
      have hi3 : i = totalRequest := by omega
      refine ⟨h.noPanic, ?_, ?_, ?_, h.wg_eq, ?_, ?_, ?_, h.deposits_eq, h.arrival_nodup,
        h.arrival_mem, h.merged, h.room⟩
      · simp [launched]
      · intro j; simp only [launched]; rw [hidle j, hi3]
      · simp [isLaunching]
      · simp
      · have := h.closed_iff
        simp only [hci.2 trivial] at this
        simp [this]
      · simp
  | collecting =>
    simp only []
    have hidle := h.idle_iff
    have hci := h.closer_idle
    have hcol := h.collected
    have hle := h.launched_le
    simp only [hm, launched, isLaunching] at hle hidle hci hcol
    cases hc : s.chan with
    | nil =>
      simp only []
      by_cases hcl : s.closed = true
      · rw [if_pos hcl]
        refine ⟨h.noPanic, ?_, ?_, ?_, h.wg_eq, h.woke, h.closed_iff, ?_, h.deposits_eq,
          h.arrival_nodup, h.arrival_mem, ?_, ?_⟩
        · simp [launched]
        · simpa [launched] using hidle
        · simpa [isLaunching] using hci
        · intro _; exact ⟨hcl, rfl⟩
        · simpa [hc] using h.merged
        · simp
      · rw [if_neg hcl]
        exact h
    | cons b rest =>
      simp only []
      refine ⟨h.noPanic, ?_, ?_, ?_, h.wg_eq, h.woke, h.closed_iff,
        ?_, h.deposits_eq, h.arrival_nodup, h.arrival_mem, ?_, ?_⟩
      · simp [launched]
      · simpa [launched] using hidle
      · simpa [isLaunching] using hci
      · simp
      · have := h.merged
        simp only [hc, List.flatten_cons] at this
        simpa [List.append_assoc] using this
      · have := h.room
        simp only [hc, List.length_cons] at this
        simp only []
        omega
  | collected => exact h

theorem inv_stepCloser (o : Fin totalRequest → Except String (List User)) (s : State)
    (h : Inv o s) : Inv o (stepCloser s) := by
  unfold stepCloser
  have hci := h.closer_idle
  have hcl := h.closed_iff
  have hw := h.woke
  have hidle := h.idle_iff
  cases hc : s.closer with
  | idle => exact h
  | done => exact h
  | waiting =>
    simp only []
    simp only [hc] at hci hcl hw
    by_cases hwg : s.wg = 0
    · rw [if_pos hwg]
      have hnl : isLaunching s.main = false := by
        cases hl : isLaunching s.main with
        | false => rfl
        | true => simp [hl] at hci
      have hl3 : launched s.main = totalRequest := by
        cases hm : s.main <;> simp [hm, isLaunching, launched] at hnl ⊢
      have hfin : ∀ j, s.task j = .finished := by
        intro j
        have hnot : s.task j ≠ .idle := by
          intro hj
          have := (hidle j).1 hj
          rw [hl3] at this
          exact absurd j.isLt (by omega)
        have hsum := h.wg_eq
        rw [hwg] at hsum
        have hact : (s.task j).active = 0 := by
          rcases fin3_cases j with rfl | rfl | rfl <;> simp only [activeCount] at hsum <;> omega
        cases ht : s.task j <;> simp [ht, TaskPc.active] at hact hnot ⊢
      refine ⟨h.noPanic, h.launched_le, h.idle_iff, ?_, h.wg_eq, ?_, ?_, h.collected,
        h.deposits_eq, h.arrival_nodup, h.arrival_mem, h.merged, h.room⟩
      · simp [hnl]
      · intro _; exact hfin
      · simpa using hcl
    · rw [if_neg hwg]
      exact h
  | woke =>
    simp only []
    simp only [hc] at hci hcl hw
    refine ⟨h.noPanic, h.launched_le, h.idle_iff, ?_, h.wg_eq, ?_, ?_, ?_,
      h.deposits_eq, h.arrival_nodup, h.arrival_mem, h.merged, h.room⟩
    · simpa using hci
    · intro _; exact h.woke (Or.inl hc)
    · simp
    · intro hm
      exact ⟨rfl, (h.collected hm).2⟩

theorem active_le_activeCount (task : Fin totalRequest → TaskPc) (i : Fin totalRequest) :
    (task i).active ≤ activeCount task := by
  rcases fin3_cases i with rfl | rfl | rfl <;> simp only [activeCount] <;> omega

theorem inv_stepTask (o : Fin totalRequest → Except String (List User)) (s : State)
    (i : Fin totalRequest) (h : Inv o s) : Inv o (stepTask o s i) := by
  unfold stepTask
  have hidle := h.idle_iff
  have hnotfin : s.task i ≠ .finished → ¬ (s.closer = .woke ∨ s.closer = .done) :=
    fun hne hw => hne (h.woke hw i)
  cases ht : s.task i with
  | idle => exact h
  | finished => exact h
  | fetching =>
    simp only []
    have hnw := hnotfin (by simp [ht])
    have hni : i ∉ s.arrival := by
      rw [h.arrival_mem i, ht]; simp [TaskPc.arrived]
    have hdep : s.deposits i = 0 := by
      rw [h.deposits_eq i, ht]; simp [TaskPc.arrived]
    have hidle2 : ∀ j, Function.update s.task i TaskPc.returning j = .idle
        ↔ launched s.main ≤ j.val := by
      intro j
      by_cases hj : j = i
      · subst hj
        simp only [Function.update_same]
        rw [← hidle j, ht]
        simp
      · simp only [Function.update_apply, hj, if_false]
        exact hidle j
    have hwg2 : s.wg = activeCount (Function.update s.task i TaskPc.returning) := by
      have := activeCount_update s.task i .returning
      rw [ht] at this
      simp only [TaskPc.active] at this
      rw [h.wg_eq]
      omega
    have hmem2 : ∀ j, j ∈ s.arrival ++ [i]
        ↔ (Function.update s.task i TaskPc.returning j).arrived = true := by
      intro j
      by_cases hj : j = i
      · subst hj; simp [TaskPc.arrived]
      · simp [Function.update_apply, hj, h.arrival_mem j]
    have hnd2 : (s.arrival ++ [i]).Nodup := by
      rw [List.nodup_append]
      refine ⟨h.arrival_nodup, List.nodup_singleton i, ?_⟩
      intro a ha hb
      rw [List.mem_singleton] at hb
      exact hni (hb ▸ ha)
    cases ho : o i with
    | error e =>
      simp only []
      have hb : batchOf o i = none := by simp [batchOf, ho]
      refine ⟨h.noPanic, h.launched_le, hidle2, h.closer_idle, hwg2, ?_, h.closed_iff,
        h.collected, ?_, hnd2, hmem2, ?_, ?_⟩
      · intro hw; exact absurd hw hnw
      · intro j
        by_cases hj : j = i
        · subst hj; simp [hdep, hb]
        · simp [Function.update_apply, hj, h.deposits_eq j]
      · simp [List.filterMap_append, hb, h.merged]
      · have := h.room
        simp only [List.length_append, List.length_singleton]
        omega
    | ok batch =>
      simp only []
      have hb : batchOf o i = some batch := by simp [batchOf, ho]
      have hopen : s.closed = false := by
        cases hcl : s.closed with
        | false => rfl
        | true => exact absurd (Or.inr (h.closed_iff.1 hcl)) hnw
      simp only [hopen, Bool.false_eq_true, if_false]
      by_cases hroom : s.chan.length < totalRequest
      · rw [if_pos hroom]
        refine ⟨h.noPanic, h.launched_le, hidle2, h.closer_idle, hwg2, ?_, ?_,
          ?_, ?_, hnd2, hmem2, ?_, ?_⟩
        · intro hw; exact absurd hw hnw
        · have := h.closed_iff
          simpa [hopen] using this
        · intro hm
          have := (h.collected hm).1
          simp [hopen] at this
        · intro j
          by_cases hj : j = i
          · subst hj; simp [hdep, hb, TaskPc.arrived]
          · simp [Function.update_apply, hj, h.deposits_eq j]
        · have := h.merged
          simp only [List.filterMap_append, List.flatten_append, ← this]
          simp [hb, List.append_assoc]
        · have := h.room
          simp only [List.length_append, List.length_singleton]
          omega
      · rw [if_neg hroom]
        have := h
        constructor
        · exact h.noPanic
        · exact h.launched_le
        · exact h.idle_iff
        · exact h.closer_idle
        · exact h.wg_eq
        · exact h.woke
        · simpa [hopen] using h.closed_iff
        · intro hm
          have := (h.collected hm).1
          simp [hopen] at this
        · exact h.deposits_eq
        · exact h.arrival_nodup
        · exact h.arrival_mem
        · exact h.merged
        · exact h.room
  | returning =>
    simp only []
    have hnw := hnotfin (by simp [ht])
    have hpos : s.wg ≠ 0 := by
      have := active_le_activeCount s.task i
      rw [ht, ← h.wg_eq] at this
      simp only [TaskPc.active] at this
      omega
    rw [if_neg hpos]
    refine ⟨h.noPanic, h.launched_le, ?_, h.closer_idle, ?_, ?_, h.closed_iff,
      h.collected, ?_, h.arrival_nodup, ?_, h.merged, h.room⟩
    · intro j
      by_cases hj : j = i
      · subst hj
        simp only [Function.update_same]
        rw [← hidle j, ht]
        simp
      · simp only [Function.update_apply, hj, if_false]
        exact hidle j
    · have := activeCount_update s.task i .finished
      rw [ht] at this
      simp only [TaskPc.active] at this
      have h2 := h.wg_eq
      simp only []
      omega
    · intro hw; exact absurd hw hnw
    · intro j
      by_cases hj : j = i
      · subst hj; simp [h.deposits_eq j, ht, TaskPc.arrived]
      · simp [Function.update_apply, hj, h.deposits_eq j]
    · intro j
      by_cases hj : j = i
      · subst hj; simp [h.arrival_mem j, ht, TaskPc.arrived]
      · simp [Function.update_apply, hj, h.arrival_mem j]

theorem inv_step (o : Fin totalRequest → Except String (List User)) (s : State)
    (g : Goroutine) (h : Inv o s) : Inv o (step o s g) := by
  unfold step
  rw [h.noPanic]
  simp only [Bool.false_eq_true, if_false]
  cases g with
  | main => exact inv_stepMain o s h
  | task i => exact inv_stepTask o s i h
  | closer => exact inv_stepCloser o s h

theorem inv_run (o : Fin totalRequest → Except String (List User)) (sched : List Goroutine)
    (s : State) (h : Inv o s) : Inv o (run o s sched) := by
  induction sched generalizing s with
  | nil => exact h
  | cons g rest ih => exact ih _ (inv_step o s g h)

theorem todo_update (task : Fin totalRequest → TaskPc) (i : Fin totalRequest) (v : TaskPc) :
    ((Function.update task i v 0).todo + (Function.update task i v 1).todo
        + (Function.update task i v 2).todo) + (task i).todo
      = ((task 0).todo + (task 1).todo + (task 2).todo) + v.todo := by
  rcases fin3_cases i with rfl | rfl | rfl <;> simp [Function.update] <;> omega

theorem stepMain_measure (s : State)
    (hidle : ∀ j : Fin totalRequest, s.task j = .idle ↔ launched s.main ≤ j.val)
    (hci : s.closer = .idle ↔ isLaunching s.main = true) :
    stepMain s = s ∨ measure (stepMain s) < measure s := by
  unfold stepMain
  cases hm : s.main with
  | launching i =>
    simp only [hm, launched, isLaunching] at hidle hci
    right
    by_cases hi : i < totalRequest
    · simp only [hi, dite_true]
      have hti : s.task ⟨i, hi⟩ = .idle := (hidle ⟨i, hi⟩).2 (le_refl _)
      have := todo_update s.task ⟨i, hi⟩ .fetching
      rw [hti] at this
      have e1 : TaskPc.idle.todo = 2 := rfl
      have e2 : TaskPc.fetching.todo = 2 := rfl
      rw [e1, e2] at this
      have e3 : mainTodo (.launching i) = 3 - i + 2 := rfl
      have e4 : mainTodo (.launching (i + 1)) = 3 - (i + 1) + 2 := rfl
      have hi3 : i < 3 := hi
      simp only [measure, hm, e3, e4]
      omega
    · simp only [hi, dite_false]
      have hcl : closerTodo s.closer = 2 := by rw [hci.2 trivial]; rfl
      have e3 : mainTodo (.launching i) = 3 - i + 2 := rfl
      have e4 : mainTodo .collecting = 1 := rfl
      have e5 : closerTodo .waiting = 2 := rfl
      simp only [measure, hm, e3, e4, e5]
      omega
  | collecting =>
    simp only []
    cases hc : s.chan with
    | nil =>
      simp only []
      by_cases hcl : s.closed = true
      · right
        rw [if_pos hcl]
        simp only [measure, hm, mainTodo, hc, List.length_nil]
        omega
      · left
        rw [if_neg hcl]
    | cons b rest =>
      right
      simp only [measure, hm, hc, List.length_cons]
      omega
  | collected => left; rfl

theorem stepCloser_measure (s : State) :
    stepCloser s = s ∨ measure (stepCloser s) < measure s := by
  unfold stepCloser
  cases hc : s.closer with
  | idle => left; rfl
  | done => left; rfl
  | waiting =>
    simp only []
    by_cases hwg : s.wg = 0
    · right
      rw [if_pos hwg]
      simp only [measure, hc, closerTodo]
      omega
    · left
      rw [if_neg hwg]
  | woke =>
    right
    simp only [measure, hc, closerTodo]
    omega

theorem stepTask_measure (o : Fin totalRequest → Except String (List User)) (s : State)
    (i : Fin totalRequest) (h : Inv o s) :
    stepTask o s i = s ∨ measure (stepTask o s i) < measure s := by
  have hinv := inv_stepTask o s i h
  unfold stepTask at hinv ⊢
  cases ht : s.task i with
  | idle => left; rfl
  | finished => left; rfl
  | fetching =>
    simp only []
    have htodo := todo_update s.task i .returning
    rw [ht] at htodo
    have e1 : TaskPc.returning.todo = 1 := rfl
    have e2 : TaskPc.fetching.todo = 2 := rfl
    rw [e1, e2] at htodo
    cases ho : o i with
    | error e =>
      right
      simp only [measure]
      omega
    | ok batch =>
      simp only []
      by_cases hcl : s.closed = true
      · exfalso
        rw [ht] at hinv
        simp only [ho, hcl, if_true] at hinv
        have := hinv.noPanic
        simp at this
      · rw [if_neg hcl]
        by_cases hroom : s.chan.length < totalRequest
        · right
          rw [if_pos hroom]
          simp only [measure, List.length_append, List.length_singleton]
          omega
        · left
          rw [if_neg hroom]
  | returning =>
    simp only []
    have htodo := todo_update s.task i .finished
    rw [ht] at htodo
    have e1 : TaskPc.returning.todo = 1 := rfl
    have e2 : TaskPc.finished.todo = 0 := rfl
    rw [e1, e2] at htodo
    by_cases hwg : s.wg = 0
    · exfalso
      rw [ht] at hinv
      simp only [hwg, if_true] at hinv
      have := hinv.noPanic
      simp at this
    · right
      rw [if_neg hwg]
      simp only [measure]
      omega

theorem step_measure (o : Fin totalRequest → Except String (List User)) (s : State)
    (g : Goroutine) (h : Inv o s) : step o s g = s ∨ measure (step o s g) < measure s := by
  unfold step
  rw [h.noPanic]
  simp only [Bool.false_eq_true, if_false]
  cases g with
  | main => exact stepMain_measure s h.idle_iff h.closer_idle
  | task i => exact stepTask_measure o s i h
  | closer => exact stepCloser_measure s

theorem step_ne_of_measure {o : Fin totalRequest → Except String (List User)} {s : State}
    {g : Goroutine} (h : step o s g ≠ s) (hinv : Inv o s) :
    measure (step o s g) < measure s := by
  rcases step_measure o s g hinv with h1 | h1
  · exact absurd h1 h
  · exact h1

theorem run_append (o : Fin totalRequest → Except String (List User)) (s : State)
    (a b : List Goroutine) : run o s (a ++ b) = run o (run o s a) b := by
  induction a generalizing s with
  | nil => rfl
  | cons g rest ih => exact ih _

theorem progress (o : Fin totalRequest → Except String (List User)) (s : State)
    (h : Inv o s) (hm : s.main ≠ .collected) : ∃ g, measure (step o s g) < measure s := by
  have hstep : ∀ g, step o s g ≠ s → measure (step o s g) < measure s :=
    fun g hg => step_ne_of_measure hg h
  have hmain : step o s .main = stepMain s := by simp [step, h.noPanic]
  have hcloser : step o s .closer = stepCloser s := by simp [step, h.noPanic]
  have htask : ∀ i, step o s (.task i) = stepTask o s i := by
    intro i; simp [step, h.noPanic]
  cases hmn : s.main with
  | collected => exact absurd hmn hm
  | launching i =>
    refine ⟨.main, hstep _ ?_⟩
    rw [hmain]
    intro heq
    have := congrArg State.main heq
    unfold stepMain at this
    simp only [hmn] at this
    split at this <;> simp at this
  | collecting =>
    cases hc : s.chan with
    | cons b rest =>
      refine ⟨.main, hstep _ ?_⟩
      rw [hmain]
      intro heq
      have := congrArg (fun t => t.chan.length) heq
      simp [stepMain, hmn, hc] at this
    | nil =>
      by_cases hcl : s.closed = true
      · refine ⟨.main, hstep _ ?_⟩
        rw [hmain]
        intro heq
        have := congrArg State.main heq
        simp [stepMain, hmn, hc, hcl] at this
      · have hnl : isLaunching s.main = false := by simp [hmn, isLaunching]
        have hnidle : s.closer ≠ .idle := by
          intro hi
          have := h.closer_idle.1 hi
          simp [hnl] at this
        have hndone : s.closer ≠ .done := fun hd => hcl (h.closed_iff.2 hd)
        cases hcs : s.closer with
        | idle => exact absurd hcs hnidle
        | done => exact absurd hcs hndone
        | woke =>
          refine ⟨.closer, hstep _ ?_⟩
          rw [hcloser]
          intro heq
          have := congrArg State.closer heq
          simp [stepCloser, hcs] at this
        | waiting =>
          by_cases hwg : s.wg = 0
          · refine ⟨.closer, hstep _ ?_⟩
            rw [hcloser]
            intro heq
            have := congrArg State.closer heq
            simp [stepCloser, hcs, hwg] at this
          · have hact : ∃ j, (s.task j).active ≠ 0 := by
              by_contra hno
              push_neg at hno
              have := h.wg_eq
              simp only [activeCount, hno 0, hno 1, hno 2] at this
              exact hwg this
            obtain ⟨j, hj⟩ := hact
            refine ⟨.task j, hstep _ ?_⟩
            rw [htask]
            intro heq
            have h1 := congrArg (fun t => t.task j) heq
            cases htj : s.task j with
            | idle => simp [htj, TaskPc.active] at hj
            | finished => simp [htj, TaskPc.active] at hj
            | returning =>
              simp [stepTask, htj, hwg] at h1
            | fetching =>
              cases ho : o j with
              | error e => simp [stepTask, htj, ho] at h1
              | ok batch =>
                have hcl2 : s.closed = false := by simpa using hcl
                simp [stepTask, htj, ho, hcl2, hc] at h1

theorem can_finish (o : Fin totalRequest → Except String (List User)) :
    ∀ (n : Nat) (s : State), Inv o s → measure s ≤ n →
      ∃ rest, (run o s rest).main = .collected := by
  intro n
  induction n with
  | zero =>
    intro s h hn
    by_cases hm : s.main = .collected
    · exact ⟨[], hm⟩
    · obtain ⟨g, hg⟩ := progress o s h hm
      omega
  | succ n ih =>
    intro s h hn
    by_cases hm : s.main = .collected
    · exact ⟨[], hm⟩
    · obtain ⟨g, hg⟩ := progress o s h hm
      obtain ⟨rest, hrest⟩ := ih (step o s g) (inv_step o s g h) (by omega)
      exact ⟨g :: rest, hrest⟩

/-- C9: in every interleaving of the fetch cycle, nothing panics (no send on
the closed channel, no negative `WaitGroup` counter); the channel is closed
only when all 3 sub-fetch tasks have finished; the collection loop has ended
only when all 3 tasks have finished, in success or failure, the channel being
closed and drained and `allUsers` holding the batches of the tasks in their
order of arrival; a task has deposited at most one batch, and exactly one once
it has finished in success, none once it has finished in failure; a task that
is about to send finds room in the channel; and as long as the loop has not
ended some goroutine can take a step, every step that changes the state
lowering a bound on the steps left, so that the scheduler can always bring the
handler past the loop. -/
theorem completion_barrier (o : Fin totalRequest → Except String (List User))
    (sched : List Goroutine) :
    (run o init sched).panicked = false
      ∧ ((run o init sched).closed = true → ∀ j, (run o init sched).task j = .finished)
      ∧ ((run o init sched).main = .collected →
          (∀ j, (run o init sched).task j = .finished)
            ∧ (run o init sched).closed = true
            ∧ (run o init sched).chan = []
            ∧ (run o init sched).allUsers = collect o (run o init sched).arrival []
            ∧ (run o init sched).arrival.Perm (List.finRange totalRequest))
      ∧ (∀ j, (run o init sched).deposits j ≤ 1)
      ∧ (∀ j, (run o init sched).task j = .finished →
          (run o init sched).deposits j = if (batchOf o j).isSome = true then 1 else 0)
      ∧ (∀ j, (run o init sched).task j = .fetching →
          (run o init sched).chan.length < totalRequest)
      ∧ ((run o init sched).main ≠ .collected →
          ∃ g, measure (step o (run o init sched) g) < measure (run o init sched))
      ∧ (∀ g, step o (run o init sched) g = run o init sched
          ∨ measure (step o (run o init sched) g) < measure (run o init sched))
      ∧ ∃ rest, (run o init (sched ++ rest)).main = .collected := by
  have h := inv_run o sched init (inv_init o)
  have hclosed : (run o init sched).closed = true →
      ∀ j, (run o init sched).task j = .finished :=
    fun hc => h.woke (Or.inr (h.closed_iff.1 hc))
  refine ⟨h.noPanic, hclosed, ?_, ?_, ?_, ?_, progress o _ h, fun g => step_measure o _ g h, ?_⟩
  · intro hm
    obtain ⟨hc, hchan⟩ := h.collected hm
    have hfin := hclosed hc
    refine ⟨hfin, hc, hchan, ?_, ?_⟩
    · have := h.merged
      rw [hchan] at this
      rw [collect_eq]
      simpa using this
    · rw [List.perm_ext_iff_of_nodup h.arrival_nodup (List.nodup_finRange _)]
      intro j
      simp only [List.mem_finRange, iff_true]
      rw [h.arrival_mem j, hfin j]
      rfl
  · intro j
    rw [h.deposits_eq j]
    split <;> omega
  · intro j hj
    rw [h.deposits_eq j, hj]
    simp [TaskPc.arrived]
  · intro j hj
    have hni : j ∉ (run o init sched).arrival := by
      rw [h.arrival_mem j, hj]
      simp [TaskPc.arrived]
    have hnd : (j :: (run o init sched).arrival).Nodup := List.nodup_cons.2 ⟨hni, h.arrival_nodup⟩
    have hcard := hnd.length_le_card
    simp only [List.length_cons, Fintype.card_fin] at hcard
    have := h.room
    omega
  · obtain ⟨rest, hrest⟩ := can_finish o _ _ h (le_refl _)
    exact ⟨rest, by rw [run_append]; exact hrest⟩

/-- Two schedules of the same three outcomes, a male record, a female record
and a failure, that end the collection loop with different aggregates. -/
theorem schedules_example :
    (run (subFetch demoLib (demoRequest [])) init (demoSchedule [0, 1, 2])).main = .collected
      ∧ (run (subFetch demoLib (demoRequest [])) init (demoSchedule [0, 1, 2])).allUsers
        = [demoUser (lit "male"), demoUser (lit "female")]
      ∧ (run (subFetch demoLib (demoRequest [])) init (demoSchedule [1, 0, 2])).main = .collected
      ∧ (run (subFetch demoLib (demoRequest [])) init (demoSchedule [1, 0, 2])).allUsers
        = [demoUser (lit "female"), demoUser (lit "male")]
      ∧ (run (subFetch demoLib (demoRequest [])) init (demoSchedule [1, 0, 2])).arrival
        = [1, 0, 2] :=
  ⟨rfl, rfl, rfl, rfl, rfl⟩

end Fanout

/-! ### UTF-8: a well-formed sequence is the encoding of its rune -/

namespace Utf8

theorem DecodeRune_take (p : GoString) : DecodeRune (p.take 4) = DecodeRune p := by
  match p with
  | [] => rfl
  | [_] => rfl
  | [_, _] => rfl
  | [_, _, _] => rfl
  | a :: b :: c :: d :: rest =>
    simp only [List.take_succ_cons, List.take_zero, DecodeRune]
    cases hf : first a.val with
    | none => rfl
    | some v =>
      obtain ⟨sz, lo, hi⟩ := v
      rfl

/-- The shape of a well-formed sequence. -/
theorem first_eq_some {p0 sz lo hi : Nat} (h : first p0 = some (sz, lo, hi)) :
    (sz = 2 ∧ 0xC2 ≤ p0 ∧ p0 ≤ 0xDF ∧ lo = 0x80 ∧ hi = 0xBF)
      ∨ (sz = 3 ∧ 0xE0 ≤ p0 ∧ p0 ≤ 0xEF ∧ 0x80 ≤ lo ∧ hi ≤ 0xBF ∧ (p0 = 0xE0 → lo = 0xA0)
          ∧ (p0 = 0xED → hi = 0x9F))
      ∨ (sz = 4 ∧ 0xF0 ≤ p0 ∧ p0 ≤ 0xF4 ∧ 0x80 ≤ lo ∧ hi ≤ 0xBF ∧ (p0 = 0xF0 → lo = 0x90)
          ∧ (p0 = 0xF4 → hi = 0x8F)) := by
  unfold first at h
  split_ifs at h <;> simp only [Option.some.injEq, Prod.mk.injEq] at h <;>
    obtain ⟨rfl, rfl, rfl⟩ := h <;> omega

theorem ofNat_eq (b : Byte) (n : Nat) (h : n = b.val) : (Fin.ofNat n : Byte) = b := by
  subst h
  apply Fin.ext
  simp only [Fin.ofNat]
  exact Nat.mod_eq_of_lt b.isLt

theorem EncodeRune_two (b b1 : Byte) (h1 : 0xC2 ≤ b.val) (h2 : b.val ≤ 0xDF)
    (h3 : 0x80 ≤ b1.val) (h4 : b1.val ≤ 0xBF) :
    EncodeRune (b.val % 32 * 64 + b1.val % 64) = [b, b1] := by
  unfold EncodeRune
  have c1 : ¬ (b.val % 32 * 64 + b1.val % 64 < 0x80) := by omega
  have c2 : b.val % 32 * 64 + b1.val % 64 ≤ 0x7FF := by omega
  rw [if_neg c1, if_pos c2]
  rw [ofNat_eq b _ (by omega), ofNat_eq b1 _ (by omega)]

theorem EncodeRune_three (b b1 b2 : Byte) (lo hi : Nat) (h1 : 0xE0 ≤ b.val) (h2 : b.val ≤ 0xEF)
    (h3 : 0x80 ≤ lo) (h4 : hi ≤ 0xBF) (h5 : b.val = 0xE0 → lo = 0xA0)
    (h6 : b.val = 0xED → hi = 0x9F) (h7 : lo ≤ b1.val) (h8 : b1.val ≤ hi)
    (h9 : 0x80 ≤ b2.val) (h10 : b2.val ≤ 0xBF) :
    EncodeRune (b.val % 16 * 4096 + b1.val % 64 * 64 + b2.val % 64) = [b, b1, b2] := by
  unfold EncodeRune
  generalize hr : b.val % 16 * 4096 + b1.val % 64 * 64 + b2.val % 64 = r
  have c1 : ¬ (r < 0x80) := by omega
  have c2 : ¬ (r ≤ 0x7FF) := by omega
  have c3 : ¬ (r > 0x10FFFF ∨ (0xD800 ≤ r ∧ r ≤ 0xDFFF)) := by omega
  have c4 : r ≤ 0xFFFF := by omega
  rw [if_neg c1, if_neg c2, if_neg c3, if_pos c4]
  rw [ofNat_eq b _ (by omega), ofNat_eq b1 _ (by omega), ofNat_eq b2 _ (by omega)]

theorem EncodeRune_four (b b1 b2 b3 : Byte) (lo hi : Nat) (h1 : 0xF0 ≤ b.val)
    (h2 : b.val ≤ 0xF4)
    (h3 : 0x80 ≤ lo) (h4 : hi ≤ 0xBF) (h5 : b.val = 0xF0 → lo = 0x90)
    (h6 : b.val = 0xF4 → hi = 0x8F) (h7 : lo ≤ b1.val) (h8 : b1.val ≤ hi)
    (h9 : 0x80 ≤ b2.val) (h10 : b2.val ≤ 0xBF) (h11 : 0x80 ≤ b3.val) (h12 : b3.val ≤ 0xBF) :
    EncodeRune (b.val % 8 * 262144 + b1.val % 64 * 4096 + b2.val % 64 * 64 + b3.val % 64)
      = [b, b1, b2, b3] := by
  unfold EncodeRune
  generalize hr : b.val % 8 * 262144 + b1.val % 64 * 4096 + b2.val % 64 * 64 + b3.val % 64 = r
  have c1 : ¬ (r < 0x80) := by omega
  have c2 : ¬ (r ≤ 0x7FF) := by omega
  have c3 : ¬ (r > 0x10FFFF ∨ (0xD800 ≤ r ∧ r ≤ 0xDFFF)) := by omega
  have c4 : ¬ (r ≤ 0xFFFF) := by omega
  rw [if_neg c1, if_neg c2, if_neg c3, if_neg c4]
  rw [ofNat_eq b _ (by omega), ofNat_eq b1 _ (by omega), ofNat_eq b2 _ (by omega),
    ofNat_eq b3 _ (by omega)]

/-- A well-formed sequence at the head of a string: its bytes are the encoding
of the rune it decodes to, and whatever follows them does not matter. -/
theorem DecodeRune_valid (b : Byte) (t : GoString) (hb : 0x80 ≤ b.val)
    (hv : ¬ ((DecodeRune (b :: t)).1 = RuneError ∧ (DecodeRune (b :: t)).2 = 1)) :
    ∃ pre rest, b :: t = pre ++ rest ∧ pre.length = (DecodeRune (b :: t)).2
      ∧ EncodeRune (DecodeRune (b :: t)).1 = pre
      ∧ (∀ q, DecodeRune (pre ++ q) = DecodeRune (b :: t))
      ∧ 2 ≤ pre.length := by
  have hnlt : ¬ b.val < 0x80 := by omega
  cases hf : first b.val with
  | none => simp [DecodeRune, hnlt, hf, RuneError] at hv
  | some v =>
    obtain ⟨sz, lo, hi⟩ := v
    match t with
    | [] => simp [DecodeRune, hnlt, hf, RuneError] at hv
    | b1 :: t1 =>
      by_cases hr : b1.val < lo ∨ hi < b1.val
      · simp [DecodeRune, hnlt, hf, RuneError, hr] at hv
      · have hr1 : lo ≤ b1.val ∧ b1.val ≤ hi := by omega
        rcases first_eq_some hf with ⟨rfl, h1, h2, rfl, rfl⟩ | ⟨rfl, h1, h2, h3, h4, h5, h6⟩
            | ⟨rfl, h1, h2, h3, h4, h5, h6⟩
        · refine ⟨[b, b1], t1, rfl, ?_, ?_, ?_, by simp⟩
          · simp [DecodeRune, hnlt, hf, hr]
          · have hd : (DecodeRune (b :: b1 :: t1)).1 = b.val % 32 * 64 + b1.val % 64 := by
              simp [DecodeRune, hnlt, hf, hr]
            rw [hd]
            exact EncodeRune_two b b1 h1 h2 hr1.1 hr1.2
          · intro q
            simp [DecodeRune, hnlt, hf, hr]
        · match t1 with
          | [] => simp [DecodeRune, hnlt, hf, RuneError, hr] at hv
          | b2 :: t2 =>
            by_cases hc2 : isCont b2.val = true
            · have hc2r : 0x80 ≤ b2.val ∧ b2.val ≤ 0xBF := by simpa [isCont] using hc2
              refine ⟨[b, b1, b2], t2, rfl, ?_, ?_, ?_, by simp⟩
              · simp [DecodeRune, hnlt, hf, hr, hc2]
              · have hd : (DecodeRune (b :: b1 :: b2 :: t2)).1
                    = b.val % 16 * 4096 + b1.val % 64 * 64 + b2.val % 64 := by
                  simp [DecodeRune, hnlt, hf, hr, hc2]
                rw [hd]
                exact EncodeRune_three b b1 b2 lo hi h1 h2 h3 h4 h5 h6 hr1.1 hr1.2 hc2r.1 hc2r.2
              · intro q
                simp [DecodeRune, hnlt, hf, hr, hc2]
            · simp [DecodeRune, hnlt, hf, RuneError, hr, hc2] at hv
        · match t1 with
          | [] => simp [DecodeRune, hnlt, hf, RuneError, hr] at hv
          | [b2] =>
            by_cases hc2 : isCont b2.val = true
            · simp [DecodeRune, hnlt, hf, RuneError, hr, hc2] at hv
            · simp [DecodeRune, hnlt, hf, RuneError, hr, hc2] at hv
          | b2 :: b3 :: t3 =>
            by_cases hc2 : isCont b2.val = true
            · by_cases hc3 : isCont b3.val = true
              · have hc2r : 0x80 ≤ b2.val ∧ b2.val ≤ 0xBF := by simpa [isCont] using hc2
                have hc3r : 0x80 ≤ b3.val ∧ b3.val ≤ 0xBF := by simpa [isCont] using hc3
                refine ⟨[b, b1, b2, b3], t3, rfl, ?_, ?_, ?_, by simp⟩
                · simp [DecodeRune, hnlt, hf, hr, hc2, hc3]
                · have hd : (DecodeRune (b :: b1 :: b2 :: b3 :: t3)).1
                      = b.val % 8 * 262144 + b1.val % 64 * 4096 + b2.val % 64 * 64
                        + b3.val % 64 := by
                    simp [DecodeRune, hnlt, hf, hr, hc2, hc3]
                  rw [hd]
                  exact EncodeRune_four b b1 b2 b3 lo hi h1 h2 h3 h4 h5 h6 hr1.1 hr1.2
                    hc2r.1 hc2r.2 hc3r.1 hc3r.2
                · intro q
                  simp [DecodeRune, hnlt, hf, hr, hc2, hc3]
              · simp [DecodeRune, hnlt, hf, RuneError, hr, hc2, hc3] at hv
            · simp [DecodeRune, hnlt, hf, RuneError, hr, hc2] at hv

end Utf8

/-! ### JSON: reading back what the encoder writes -/

namespace Json

theorem hexVal_hex : ∀ n : Fin 16, hexVal (hex n.val) = some n.val := by decide

theorem hexVal_hex_lt (n : Nat) (h : n < 16) : hexVal (hex n) = some n :=
  hexVal_hex ⟨n, h⟩

theorem prepend_some (pre s rest : GoString) :
    prepend pre (some (s, rest)) = some (pre ++ s, rest) := rfl

theorem unquoteLoop_quote (f : Nat) (t : GoString) :
    unquoteLoop (f + 1) (0x22 :: t) = some ([], t) := by
  simp [unquoteLoop]

theorem unquoteLoop_plain (f : Nat) (c : Byte) (t : GoString) (h1 : c ≠ 0x22) (h2 : c ≠ 0x5C)
    (h3 : 0x20 ≤ c.val) (h4 : c.val < 0x80) :
    unquoteLoop (f + 1) (c :: t) = prepend [c] (unquoteLoop f t) := by
  have h5 : ¬ c.val < 0x20 := by omega
  simp [unquoteLoop, h1, h2, h5, h4]

theorem unquoteLoop_simple (f : Nat) (e b : Byte) (t : GoString) (h1 : e ≠ 0x75)
    (h2 : simpleEscape e = some b) :
    unquoteLoop (f + 1) (0x5C :: e :: t) = prepend [b] (unquoteLoop f t) := by
  simp [unquoteLoop, h1, h2]

theorem unquoteLoop_u4 (f : Nat) (h0 h1 h2 h3 : Byte) (t : GoString) (rr : Nat)
    (hg : getu4 (0x5C :: 0x75 :: h0 :: h1 :: h2 :: h3 :: t) = some rr)
    (hs : ¬ (0xD800 ≤ rr ∧ rr < 0xE000)) :
    unquoteLoop (f + 1) (0x5C :: 0x75 :: h0 :: h1 :: h2 :: h3 :: t)
      = prepend (Utf8.EncodeRune rr) (unquoteLoop f t) := by
  simp [unquoteLoop, hg, hs]

theorem unquoteLoop_multi (f : Nat) (c : Byte) (t : GoString) (h : 0x80 ≤ c.val) :
    unquoteLoop (f + 1) (c :: t)
      = prepend (Utf8.EncodeRune (Utf8.DecodeRune (c :: t)).1)
          (unquoteLoop f ((c :: t).drop (Utf8.DecodeRune (c :: t)).2)) := by
  have h1 : c ≠ 0x22 := by
    intro hc
    have : c.val = 0x22 := by rw [hc]; rfl
    omega
  have h2 : c ≠ 0x5C := by
    intro hc
    have : c.val = 0x5C := by rw [hc]; rfl
    omega
  have h3 : ¬ c.val < 0x20 := by omega
  have h4 : ¬ c.val < 0x80 := by omega
  simp [unquoteLoop, h1, h2, h3, h4]

/-- What the decoder makes of the escape of one ASCII byte. -/
theorem unquoteLoop_ascii (f : Nat) (b : Byte) (t : GoString) (hb : b.val < 0x80) :
    unquoteLoop (f + 1) ((if htmlSafeSet b.val = true then [b] else escapeAscii b) ++ t)
      = prepend [b] (unquoteLoop f t) := by
  by_cases hs : htmlSafeSet b.val = true
  · rw [if_pos hs]
    simp only [htmlSafeSet, decide_eq_true_eq] at hs
    have h1 : b ≠ 0x22 := by
      intro hc
      have : b.val = 0x22 := by rw [hc]; rfl
      omega
    have h2 : b ≠ 0x5C := by
      intro hc
      have : b.val = 0x5C := by rw [hc]; rfl
      omega
    exact unquoteLoop_plain f b t h1 h2 hs.1 hb
  · rw [if_neg hs]
    unfold escapeAscii
    by_cases c1 : b = 0x5C ∨ b = 0x22
    · rw [if_pos c1]
      rcases c1 with rfl | rfl
      · exact unquoteLoop_simple f _ _ t (by decide) (by decide)
      · exact unquoteLoop_simple f _ _ t (by decide) (by decide)
    rw [if_neg c1]
    by_cases c2 : b = 0x08
    · rw [if_pos c2, c2]
      exact unquoteLoop_simple f 0x62 _ t (by decide) (by decide)
    rw [if_neg c2]
    by_cases c3 : b = 0x0C
    · rw [if_pos c3, c3]
      exact unquoteLoop_simple f 0x66 _ t (by decide) (by decide)
    rw [if_neg c3]
    by_cases c4 : b = 0x0A
    · rw [if_pos c4, c4]
      exact unquoteLoop_simple f 0x6E _ t (by decide) (by decide)
    rw [if_neg c4]
    by_cases c5 : b = 0x0D
    · rw [if_pos c5, c5]
      exact unquoteLoop_simple f 0x72 _ t (by decide) (by decide)
    rw [if_neg c5]
    by_cases c6 : b = 0x09
    · rw [if_pos c6, c6]
      exact unquoteLoop_simple f 0x74 _ t (by decide) (by decide)
    rw [if_neg c6]
    have hlit : lit "\\u00" = [0x5C, 0x75, 0x30, 0x30] := by decide
    rw [hlit]
    have hg : getu4 (0x5C :: 0x75 :: 0x30 :: 0x30 :: hex (b.val / 16) :: hex (b.val % 16) :: t)
        = some b.val := by
      have e1 : hexVal (0x30 : Byte) = some 0 := by decide
      simp only [getu4, and_self, if_true, e1, hexVal_hex_lt (b.val / 16) (by omega),
        hexVal_hex_lt (b.val % 16) (by omega)]
      congr 1
      omega
    have := unquoteLoop_u4 f 0x30 0x30 (hex (b.val / 16)) (hex (b.val % 16)) t b.val hg (by omega)
    have he : Utf8.EncodeRune b.val = [b] := by
      unfold Utf8.EncodeRune
      rw [if_pos hb, Utf8.ofNat_eq b _ rfl]
    rw [he] at this
    exact this

theorem escapeLoop_cons (f : Nat) (b : Byte) (t : GoString) :
    escapeLoop (f + 1) (b :: t) =
      if b.val < 0x80 then
        (if htmlSafeSet b.val = true then [b] else escapeAscii b) ++ escapeLoop f t
      else if (Utf8.DecodeRune (b :: t)).1 = Utf8.RuneError ∧ (Utf8.DecodeRune (b :: t)).2 = 1
        then lit "\\ufffd" ++ escapeLoop f t
      else if (Utf8.DecodeRune (b :: t)).1 = 0x2028 ∨ (Utf8.DecodeRune (b :: t)).1 = 0x2029 then
        lit "\\u202" ++ [hex ((Utf8.DecodeRune (b :: t)).1 % 16)]
          ++ escapeLoop f ((b :: t).drop (Utf8.DecodeRune (b :: t)).2)
      else (b :: t).take (Utf8.DecodeRune (b :: t)).2
          ++ escapeLoop f ((b :: t).drop (Utf8.DecodeRune (b :: t)).2) := by
  rw [escapeLoop, Utf8.DecodeRune_take]

theorem coerceLoop_cons (f : Nat) (b : Byte) (t : GoString) :
    coerceLoop (f + 1) (b :: t) =
      if (Utf8.DecodeRune (b :: t)).1 = Utf8.RuneError ∧ (Utf8.DecodeRune (b :: t)).2 = 1
        then [0xEF, 0xBF, 0xBD] ++ coerceLoop f t
      else (b :: t).take (Utf8.DecodeRune (b :: t)).2
          ++ coerceLoop f ((b :: t).drop (Utf8.DecodeRune (b :: t)).2) := by
  rw [coerceLoop]

theorem DecodeRune_ascii (b : Byte) (t : GoString) (hb : b.val < 0x80) :
    Utf8.DecodeRune (b :: t) = (b.val, 1) := by
  simp [Utf8.DecodeRune, hb]

/-- Reading back what `appendString` writes between the quotes gives the
string coerced to valid UTF-8. -/
theorem unquoteLoop_escapeLoop : ∀ (f : Nat) (s : GoString) (g : Nat) (rest : GoString),
    s.length ≤ f → (escapeLoop f s).length < g →
    unquoteLoop g (escapeLoop f s ++ 0x22 :: rest) = some (coerceLoop f s, rest) := by
  intro f
  induction f with
  | zero =>
    intro s g rest hs hg
    match s, hs with
    | [], _ =>
      match g, hg with
      | g + 1, _ => simp [escapeLoop, coerceLoop, unquoteLoop]
  | succ f ih =>
    intro s g rest hs hg
    match s, hs with
    | [], _ =>
      match g, hg with
      | g + 1, _ => simp [escapeLoop, coerceLoop, unquoteLoop]
    | b :: t, hs =>
      have hlen : t.length ≤ f := by simpa using hs
      rw [escapeLoop_cons] at hg ⊢
      rw [coerceLoop_cons]
      by_cases hb : b.val < 0x80
      · rw [if_pos hb] at hg ⊢
        have hd := DecodeRune_ascii b t hb
        have hnv : ¬ ((Utf8.DecodeRune (b :: t)).1 = Utf8.RuneError
            ∧ (Utf8.DecodeRune (b :: t)).2 = 1) := by
          rw [hd]; simp only [Utf8.RuneError]; omega
        rw [if_neg hnv, hd]
        match g, hg with
        | g + 1, hg =>
          have hchunk : 1 ≤ (if htmlSafeSet b.val = true then [b] else escapeAscii b).length := by
            split
            · simp
            · unfold escapeAscii
              split_ifs <;> simp [lit]
          rw [List.length_append] at hg
          rw [List.append_assoc, unquoteLoop_ascii g b _ hb, ih t g rest hlen (by omega)]
          simp [prepend]
      · rw [if_neg hb] at hg ⊢
        have hb80 : 0x80 ≤ b.val := by omega
        by_cases hv : (Utf8.DecodeRune (b :: t)).1 = Utf8.RuneError
            ∧ (Utf8.DecodeRune (b :: t)).2 = 1
        · rw [if_pos hv] at hg ⊢
          rw [if_pos hv]
          have hlit : lit "\\ufffd" = [0x5C, 0x75, 0x66, 0x66, 0x66, 0x64] := by decide
          rw [hlit] at hg ⊢
          match g, hg with
          | g + 1, hg =>
            simp only [List.length_append, List.length_cons, List.length_nil] at hg
            have hg4 : getu4 (0x5C :: 0x75 :: 0x66 :: 0x66 :: 0x66 :: 0x64
                :: (escapeLoop f t ++ 0x22 :: rest)) = some 0xFFFD := by
              have e1 : hexVal (0x66 : Byte) = some 15 := by decide
              have e2 : hexVal (0x64 : Byte) = some 13 := by decide
              simp [getu4, e1, e2]
            have henc : Utf8.EncodeRune 0xFFFD = [0xEF, 0xBF, 0xBD] := by decide
            have := unquoteLoop_u4 g 0x66 0x66 0x66 0x64 (escapeLoop f t ++ 0x22 :: rest)
              0xFFFD hg4 (by omega)
            simp only [List.cons_append, List.nil_append]
            rw [this, ih t g rest hlen (by omega), henc]
            simp [prepend]
        · rw [if_neg hv] at hg ⊢
          rw [if_neg hv]
          obtain ⟨pre, rest0, hsplit, hprelen, henc, hdec, hpre2⟩ :=
            Utf8.DecodeRune_valid b t hb80 hv
          have htake : (b :: t).take (Utf8.DecodeRune (b :: t)).2 = pre := by
            rw [← hprelen, hsplit]; simp
          have hdrop : (b :: t).drop (Utf8.DecodeRune (b :: t)).2 = rest0 := by
            rw [← hprelen, hsplit]; simp
          have hlen0 : rest0.length ≤ f := by
            have := congrArg List.length hsplit
            simp only [List.length_cons, List.length_append] at this
            omega
          rw [htake, hdrop] at hg ⊢
          by_cases hls : (Utf8.DecodeRune (b :: t)).1 = 0x2028
              ∨ (Utf8.DecodeRune (b :: t)).1 = 0x2029
          · rw [if_pos hls] at hg ⊢
            have hlit : lit "\\u202" = [0x5C, 0x75, 0x32, 0x30, 0x32] := by decide
            rw [hlit] at hg ⊢
            match g, hg with
            | g + 1, hg =>
              simp only [List.length_append, List.length_cons, List.length_nil] at hg
              have hg4 : getu4 (0x5C :: 0x75 :: 0x32 :: 0x30 :: 0x32
                  :: hex ((Utf8.DecodeRune (b :: t)).1 % 16)
                  :: (escapeLoop f rest0 ++ 0x22 :: rest))
                  = some (Utf8.DecodeRune (b :: t)).1 := by
                have e1 : hexVal (0x32 : Byte) = some 2 := by decide
                have e2 : hexVal (0x30 : Byte) = some 0 := by decide
                simp only [getu4, and_self, if_true, e1, e2,
                  hexVal_hex_lt ((Utf8.DecodeRune (b :: t)).1 % 16) (by omega)]
                congr 1
                omega
              have := unquoteLoop_u4 g 0x32 0x30 0x32 (hex ((Utf8.DecodeRune (b :: t)).1 % 16))
                (escapeLoop f rest0 ++ 0x22 :: rest) _ hg4 (by omega)
              simp only [List.cons_append, List.nil_append, List.append_assoc]
              rw [this, ih rest0 g rest hlen0 (by omega), henc]
              simp [prepend]
          · rw [if_neg hls] at hg ⊢
            match pre, hsplit, hpre2 with
            | c :: pre1, hsplit, _ =>
              have hc : c = b := by
                have := congrArg List.head? hsplit
                simpa using this.symm
              subst hc
              match g, hg with
              | g + 1, hg =>
                simp only [List.length_append, List.length_cons] at hg
                have hd2 := hdec (escapeLoop f rest0 ++ 0x22 :: rest)
                simp only [List.cons_append, List.append_assoc] at hd2 ⊢
                rw [unquoteLoop_multi g c _ hb80, hd2, henc, ← hprelen]
                have hdr : List.drop (c :: pre1).length
                    (c :: (pre1 ++ (escapeLoop f rest0 ++ 0x22 :: rest)))
                    = escapeLoop f rest0 ++ 0x22 :: rest := by
                  have : c :: (pre1 ++ (escapeLoop f rest0 ++ 0x22 :: rest))
                      = (c :: pre1) ++ (escapeLoop f rest0 ++ 0x22 :: rest) := rfl
                  rw [this, List.drop_left]
                rw [hdr, ih rest0 g rest hlen0 (by omega)]
                simp [prepend]

theorem DecodeRune_size_pos (b : Byte) (t : GoString) : 1 ≤ (Utf8.DecodeRune (b :: t)).2 := by
  by_cases hb : b.val < 0x80
  · rw [DecodeRune_ascii b t hb]
  · by_cases hv : (Utf8.DecodeRune (b :: t)).1 = Utf8.RuneError
        ∧ (Utf8.DecodeRune (b :: t)).2 = 1
    · omega
    · obtain ⟨pre, rest0, _, hprelen, _, _, hpre2⟩ :=
        Utf8.DecodeRune_valid b t (by omega) hv
      omega

theorem coerceLoop_of_valid : ∀ (f : Nat) (s : GoString), s.length ≤ f →
    Utf8.validLoop f s = true → coerceLoop f s = s := by
  intro f
  induction f with
  | zero =>
    intro s hs _
    match s, hs with
    | [], _ => rfl
  | succ f ih =>
    intro s hs hv
    match s, hs, hv with
    | [], _, _ => rfl
    | b :: t, hs, hv =>
      rw [coerceLoop_cons]
      unfold Utf8.validLoop at hv
      simp only at hv
      by_cases hbad : (Utf8.DecodeRune (b :: t)).1 = Utf8.RuneError
          ∧ (Utf8.DecodeRune (b :: t)).2 = 1
      · rw [if_pos hbad] at hv
        exact absurd hv (by simp)
      · rw [if_neg hbad] at hv ⊢
        have hpos := DecodeRune_size_pos b t
        have hlen : ((b :: t).drop (Utf8.DecodeRune (b :: t)).2).length ≤ f := by
          rw [List.length_drop]
          simp only [List.length_cons] at hs ⊢
          omega
        rw [ih _ hlen hv, List.take_append_drop]

theorem coerce_of_valid (s : GoString) (h : Utf8.Valid s = true) : coerce s = s :=
  coerceLoop_of_valid s.length s (le_refl _) h

/-- Scanning the string literal that `appendString` writes: the opening quote
apart, the scanner returns the coerced string and the input after the closing
quote. -/
theorem scanString_appendString (s rest : GoString) :
    scanString (escapeLoop s.length s ++ 0x22 :: rest) = some (coerce s, rest) := by
  unfold scanString coerce
  apply unquoteLoop_escapeLoop _ _ _ _ (le_refl _)
  simp

theorem appendString_append (s rest : GoString) :
    appendString s ++ rest = 0x22 :: (escapeLoop s.length s ++ 0x22 :: rest) := by
  simp [appendString]

theorem skipSpace_cons_space (c : Byte) (t : GoString) (h : isSpace c = true) :
    skipSpace (c :: t) = skipSpace t := by
  simp [skipSpace, h]

theorem skipSpace_cons_other (c : Byte) (t : GoString) (h : isSpace c = false) :
    skipSpace (c :: t) = c :: t := by
  simp [skipSpace, h]

theorem skipSpace_idem (s : GoString) : skipSpace (skipSpace s) = skipSpace s := by
  induction s with
  | nil => rfl
  | cons c t ih =>
    by_cases h : isSpace c = true
    · rw [skipSpace_cons_space c t h, ih]
    · have h2 : isSpace c = false := by simpa using h
      rw [skipSpace_cons_other c t h2, skipSpace_cons_other c t h2]

/-- A string value, white space before it or not. -/
theorem scanValue_string (f depth : Nat) (pre s rest : GoString) (hpre : skipSpace (pre ++ appendString s ++ rest) = appendString s ++ rest) :
    scanValue (f + 1) depth (pre ++ appendString s ++ rest) = some (Value.string (coerce s), rest) := by
  have hne : ¬ ((0x22 : Byte) = 0x7B) := by decide
  have hne2 : ¬ ((0x22 : Byte) = 0x5B) := by decide
  rw [scanValue, hpre, appendString_append]
  simp only [hne, hne2, if_false, if_true, scanString_appendString]

theorem scanValue_string_sp (f depth : Nat) (s rest : GoString) :
    scanValue (f + 1) depth (0x20 :: (appendString s ++ rest))
      = some (Value.string (coerce s), rest) := by
  have h := scanValue_string f depth [0x20] s rest (by
    simp only [List.append_assoc, List.singleton_append, List.cons_append,
      appendString_append]
    rfl)
  simpa using h

/-- An object member that a comma and the next member line follow. -/
theorem scanMembers_step_aux (f depth : Nat) (key v Y : GoString) :
    scanMembers (f + 2) depth
        (appendString key ++ (0x3A :: 0x20 :: (appendString v
          ++ (0x2C :: 0x0A :: 0x20 :: 0x20 :: 0x20 :: 0x20 :: 0x22 :: Y))))
      = (scanMembers (f + 1) depth (0x22 :: Y)).map
          fun p => ((coerce key, Value.string (coerce v)) :: p.1, p.2) := by
  rw [appendString_append, scanMembers]
  simp only [if_true, scanString_appendString]
  have h1 : skipSpace (0x3A :: 0x20 :: (appendString v
      ++ (0x2C :: 0x0A :: 0x20 :: 0x20 :: 0x20 :: 0x20 :: 0x22 :: Y)))
      = 0x3A :: 0x20 :: (appendString v
      ++ (0x2C :: 0x0A :: 0x20 :: 0x20 :: 0x20 :: 0x20 :: 0x22 :: Y)) := rfl
  rw [h1]
  simp only [if_true, scanValue_string_sp]
  have h2 : skipSpace (0x2C :: 0x0A :: 0x20 :: 0x20 :: 0x20 :: 0x20 :: 0x22 :: Y)
      = 0x2C :: 0x0A :: 0x20 :: 0x20 :: 0x20 :: 0x20 :: 0x22 :: Y := rfl
  have h3 : skipSpace (0x0A :: 0x20 :: 0x20 :: 0x20 :: 0x20 :: 0x22 :: Y) = 0x22 :: Y := rfl
  have h4 : ¬ ((0x2C : Byte) = 0x7D) := by decide
  rw [h2]
  simp only [h4, if_false, if_true, h3]
  cases scanMembers (f + 1) depth (0x22 :: Y) with
  | none => rfl
  | some p => rfl

theorem scanMembers_step (f depth : Nat) (key v key2 Z : GoString) :
    scanMembers (f + 2) depth
        (appendString key ++ (0x3A :: 0x20 :: (appendString v
          ++ (0x2C :: 0x0A :: 0x20 :: 0x20 :: 0x20 :: 0x20 :: (appendString key2 ++ Z)))))
      = (scanMembers (f + 1) depth (appendString key2 ++ Z)).map
          fun p => ((coerce key, Value.string (coerce v)) :: p.1, p.2) := by
  rw [appendString_append key2 Z]
  exact scanMembers_step_aux f depth key v _

/-- The last member of an object, before the closing brace at depth 1. -/
theorem scanMembers_last (f depth : Nat) (key v rest : GoString) :
    scanMembers (f + 2) depth
        (appendString key ++ (0x3A :: 0x20 :: (appendString v
          ++ (0x0A :: 0x20 :: 0x20 :: 0x7D :: rest))))
      = some ([(coerce key, Value.string (coerce v))], rest) := by
  rw [appendString_append, scanMembers]
  simp only [if_true, scanString_appendString]
  have h1 : skipSpace (0x3A :: 0x20 :: (appendString v
      ++ (0x0A :: 0x20 :: 0x20 :: 0x7D :: rest)))
      = 0x3A :: 0x20 :: (appendString v ++ (0x0A :: 0x20 :: 0x20 :: 0x7D :: rest)) := rfl
  rw [h1]
  simp only [if_true, scanValue_string_sp]
  have h2 : skipSpace (0x0A :: 0x20 :: 0x20 :: 0x7D :: rest) = 0x7D :: rest := rfl
  rw [h2]
  simp only [if_true]

/-- An object at depth 1 of the indented array, from the spaces before its
opening brace, given the scan of its members. -/
theorem scanValue_object (f depth : Nat) (key Z rest : GoString)
    (m : List (GoString × Value))
    (hm : scanMembers (f + 1) depth (appendString key ++ Z) = some (m, rest)) :
    scanValue (f + 2) (depth + 1)
        (0x20 :: 0x20 :: 0x7B :: 0x0A :: 0x20 :: 0x20 :: 0x20 :: 0x20 :: (appendString key ++ Z))
      = some (Value.object m, rest) := by
  rw [appendString_append] at hm ⊢
  rw [scanValue]
  have h1 : skipSpace (0x20 :: 0x20 :: 0x7B :: 0x0A :: 0x20 :: 0x20 :: 0x20 :: 0x20 :: 0x22
      :: (escapeLoop key.length key ++ 0x22 :: Z))
      = 0x7B :: 0x0A :: 0x20 :: 0x20 :: 0x20 :: 0x20 :: 0x22
      :: (escapeLoop key.length key ++ 0x22 :: Z) := rfl
  have h2 : skipSpace (0x0A :: 0x20 :: 0x20 :: 0x20 :: 0x20 :: 0x22
      :: (escapeLoop key.length key ++ 0x22 :: Z))
      = 0x22 :: (escapeLoop key.length key ++ 0x22 :: Z) := rfl
  have h3 : ¬ ((0x22 : Byte) = 0x7D) := by decide
  rw [h1]
  simp only [if_true, h2, h3, if_false, hm]

theorem lit_open_brace : lit "  \x7b\n" = [0x20, 0x20, 0x7B, 0x0A] := by decide
theorem lit_close_brace : lit "\n  \x7d" = [0x0A, 0x20, 0x20, 0x7D] := by decide
theorem lit_comma : lit ",\n" = [0x2C, 0x0A] := by decide
theorem lit_indent : lit "    " = [0x20, 0x20, 0x20, 0x20] := by decide
theorem lit_colon : lit ": " = [0x3A, 0x20] := by decide
theorem lit_open_bracket : lit "[\n" = [0x5B, 0x0A] := by decide
theorem lit_close_bracket : lit "\n]" = [0x0A, 0x5D] := by decide

theorem coerce_tags :
    coerce (lit "gender") = lit "gender" ∧ coerce (lit "first_name") = lit "first_name"
      ∧ coerce (lit "last_name") = lit "last_name" ∧ coerce (lit "email") = lit "email"
      ∧ coerce (lit "city") = lit "city" ∧ coerce (lit "country") = lit "country"
      ∧ coerce (lit "uuid") = lit "uuid" := by
  decide

theorem encodeUser_append (u : User) (rest : GoString) :
    encodeUser u ++ rest =
      0x20 :: 0x20 :: 0x7B :: 0x0A :: 0x20 :: 0x20 :: 0x20 :: 0x20 ::
      (appendString (lit "gender") ++ (0x3A :: 0x20 :: (appendString u.Gender ++
      (0x2C :: 0x0A :: 0x20 :: 0x20 :: 0x20 :: 0x20 ::
      (appendString (lit "first_name") ++ (0x3A :: 0x20 :: (appendString u.FirstName ++
      (0x2C :: 0x0A :: 0x20 :: 0x20 :: 0x20 :: 0x20 ::
      (appendString (lit "last_name") ++ (0x3A :: 0x20 :: (appendString u.LastName ++
      (0x2C :: 0x0A :: 0x20 :: 0x20 :: 0x20 :: 0x20 ::
      (appendString (lit "email") ++ (0x3A :: 0x20 :: (appendString u.Email ++
      (0x2C :: 0x0A :: 0x20 :: 0x20 :: 0x20 :: 0x20 ::
      (appendString (lit "city") ++ (0x3A :: 0x20 :: (appendString u.City ++
      (0x2C :: 0x0A :: 0x20 :: 0x20 :: 0x20 :: 0x20 ::
      (appendString (lit "country") ++ (0x3A :: 0x20 :: (appendString u.Country ++
      (0x2C :: 0x0A :: 0x20 :: 0x20 :: 0x20 :: 0x20 ::
      (appendString (lit "uuid") ++ (0x3A :: 0x20 :: (appendString u.UUID ++
      (0x0A :: 0x20 :: 0x20 :: 0x7D :: rest)))))))))))))))))))))))))))) := by
  simp only [encodeUser, memberLine, lit_open_brace, lit_close_brace, lit_comma, lit_indent,
    lit_colon, List.append_assoc, List.cons_append, List.nil_append]

/-- The scanner reads the encoding of a record back as the object of its
coerced fields. -/
theorem scanValue_encodeUser (f depth : Nat) (u : User) (rest : GoString) :
    scanValue (f + 9) (depth + 1) (encodeUser u ++ rest) = some (userValue u, rest) := by
  rw [encodeUser_append]
  apply scanValue_object (f + 7) depth
  obtain ⟨t1, t2, t3, t4, t5, t6, t7⟩ := coerce_tags
  rw [scanMembers_step (f + 6), scanMembers_step (f + 5), scanMembers_step (f + 4),
    scanMembers_step (f + 3), scanMembers_step (f + 2), scanMembers_step (f + 1),
    scanMembers_last f, t1, t2, t3, t4, t5, t6, t7]
  rfl

theorem encodeUser_length (u : User) : 11 ≤ (encodeUser u).length := by
  have h := congrArg List.length (encodeUser_append u [])
  simp only [List.append_nil, List.length_cons, List.length_append] at h
  omega

theorem scanValue_skip (f depth : Nat) (c : Byte) (s : GoString) (hc : isSpace c = true) :
    scanValue f depth (c :: s) = scanValue f depth s := by
  cases f with
  | zero => simp [scanValue]
  | succ f => rw [scanValue, scanValue, skipSpace_cons_space c s hc]

theorem scanElems_skip (f depth : Nat) (c : Byte) (s : GoString) (hc : isSpace c = true) :
    scanElems f depth (c :: s) = scanElems f depth s := by
  cases f with
  | zero => simp [scanElems]
  | succ f => rw [scanElems, scanElems, scanValue_skip f depth c s hc]

/-- The scanner reads the elements of the indented array back, up to the
closing bracket. -/
theorem scanElems_encodeElems (depth : Nat) (rest : GoString) :
    ∀ (us : List User) (f : Nat), us ≠ [] →
      scanElems (f + us.length + 9) (depth + 1) (encodeElems us ++ (0x0A :: 0x5D :: rest))
        = some (us.map userValue, rest) := by
  intro us
  induction us with
  | nil => intro f h; exact absurd rfl h
  | cons u tail ih =>
    intro f _
    match tail, ih with
    | [], _ =>
      have hfuel : f + [u].length + 9 = (f + 9) + 1 := by simp
      rw [hfuel, scanElems]
      simp only [encodeElems, scanValue_encodeUser]
      have h1 : skipSpace (0x0A :: 0x5D :: rest) = 0x5D :: rest := rfl
      simp only [h1, if_true, List.map]
    | v :: tail2, ih =>
      have hfuel : f + (u :: v :: tail2).length + 9 = (f + (v :: tail2).length + 9) + 1 := by
        simp only [List.length_cons]; omega
      have hfuel2 : f + (v :: tail2).length + 9 = (f + (v :: tail2).length) + 9 := by omega
      rw [hfuel, scanElems]
      simp only [encodeElems, lit_comma, List.append_assoc, List.cons_append, List.nil_append]
      rw [hfuel2, scanValue_encodeUser, ← hfuel2]
      have h1 : skipSpace (0x2C :: 0x0A :: (encodeElems (v :: tail2) ++ (0x0A :: 0x5D :: rest)))
          = 0x2C :: 0x0A :: (encodeElems (v :: tail2) ++ (0x0A :: 0x5D :: rest)) := rfl
      have h2 : ¬ ((0x2C : Byte) = 0x5D) := by decide
      simp only [h1, h2, if_false, if_true]
      rw [scanElems_skip _ _ 0x0A _ (by decide), ih f (by simp)]
      simp only [List.map]

theorem encodeElems_length : ∀ us : List User, 11 * us.length ≤ (encodeElems us).length
  | [] => by simp
  | [u] => by
    have := encodeUser_length u
    simp only [encodeElems, List.length_singleton]
    omega
  | u :: v :: rest => by
    have h1 := encodeUser_length u
    have h2 := encodeElems_length (v :: rest)
    simp only [encodeElems, List.length_append, List.length_cons] at h2 ⊢
    omega

theorem findField_tags :
    findField (lit "gender") = some .gender ∧ findField (lit "first_name") = some .firstName
      ∧ findField (lit "last_name") = some .lastName ∧ findField (lit "email") = some .email
      ∧ findField (lit "city") = some .city ∧ findField (lit "country") = some .country
      ∧ findField (lit "uuid") = some .uuid := by
  decide

theorem decodeUser_userValue (u : User) : decodeUser (userValue u) = some u.coerced := by
  obtain ⟨t1, t2, t3, t4, t5, t6, t7⟩ := findField_tags
  simp only [decodeUser, userValue, storeMembers, storeMember, t1, t2, t3, t4, t5, t6, t7,
    setField, User.zero, User.coerced]

theorem decodeElems_userValue : ∀ us : List User,
    decodeElems (us.map userValue) = some (us.map User.coerced)
  | [] => rfl
  | u :: rest => by
    simp only [List.map, decodeElems, decodeUser_userValue, decodeElems_userValue rest]

theorem scanElems_skipSpace (f depth : Nat) (s : GoString) :
    scanElems f depth (skipSpace s) = scanElems f depth s := by
  induction s with
  | nil => rfl
  | cons c t ih =>
    by_cases h : isSpace c = true
    · rw [skipSpace_cons_space c t h, ih, scanElems_skip f depth c t h]
    · have h2 : isSpace c = false := by simpa using h
      rw [skipSpace_cons_other c t h2]

/-- A non-empty array, given the scan of its elements. -/
theorem scanValue_array (f depth : Nat) (t r : GoString) (l : List Value) (c1 : Byte)
    (t1 : GoString) (hskip : skipSpace t = c1 :: t1) (hc1 : c1 ≠ 0x5D)
    (hel : scanElems f depth t = some (l, r)) :
    scanValue (f + 1) (depth + 1) (0x5B :: t) = some (Value.array l, r) := by
  have h1 : skipSpace (0x5B :: t) = 0x5B :: t := rfl
  have h2 : ¬ ((0x5B : Byte) = 0x7B) := by decide
  have h3 : scanElems f depth (c1 :: t1) = some (l, r) := by
    rw [← hskip, scanElems_skipSpace, hel]
  rw [scanValue, h1]
  simp only [h2, if_false, if_true, hskip, hc1, h3]

theorem encodeElems_head (u : User) (rest : List User) (X : GoString) :
    ∃ Z, encodeElems (u :: rest) ++ X = 0x20 :: 0x20 :: 0x7B :: Z := by
  cases rest with
  | nil =>
    simp only [encodeElems]
    rw [encodeUser_append]
    exact ⟨_, rfl⟩
  | cons v tail =>
    simp only [encodeElems, List.append_assoc]
    rw [encodeUser_append]
    exact ⟨_, rfl⟩

/-- Decoding the indented encoding of a non-empty `[]User` gives the records
with their fields coerced to valid UTF-8. -/
theorem Unmarshal_encode (u : User) (rest : List User) :
    Unmarshal (lit "[\n" ++ encodeElems (u :: rest) ++ lit "\n]")
      = .ok ((u :: rest).map User.coerced) := by
  have hlen := encodeElems_length (u :: rest)
  have hdata : lit "[\n" ++ encodeElems (u :: rest) ++ lit "\n]"
      = 0x5B :: 0x0A :: (encodeElems (u :: rest) ++ (0x0A :: 0x5D :: [])) := by
    simp only [lit_open_bracket, lit_close_bracket, List.append_assoc, List.cons_append,
      List.nil_append]
  unfold Unmarshal
  rw [hdata]
  obtain ⟨f, hf⟩ : ∃ f, (0x5B :: 0x0A :: (encodeElems (u :: rest)
      ++ (0x0A :: 0x5D :: ([] : GoString)))).length + 1
      = (f + (u :: rest).length + 9) + 1 := by
    refine ⟨(encodeElems (u :: rest)).length + 4 - (u :: rest).length - 9, ?_⟩
    simp only [List.length_cons, List.length_append, List.length_nil] at hlen ⊢
    omega
  obtain ⟨Z, hZ⟩ := encodeElems_head u rest (0x0A :: 0x5D :: [])
  have hskip : skipSpace (0x0A :: (encodeElems (u :: rest) ++ (0x0A :: 0x5D :: ([] : GoString))))
      = 0x7B :: Z := by
    rw [hZ]
    rfl
  have hel : scanElems (f + (u :: rest).length + 9) (9998 + 1)
      (0x0A :: (encodeElems (u :: rest) ++ (0x0A :: 0x5D :: ([] : GoString))))
      = some ((u :: rest).map userValue, []) := by
    rw [scanElems_skip _ _ 0x0A _ (by decide)]
    exact scanElems_encodeElems 9998 [] (u :: rest) f (by simp)
  have hd : maxNestingDepth = (9998 + 1) + 1 := rfl
  rw [hf, hd, scanValue_array _ _ _ _ _ 0x7B Z hskip (by decide) hel]
  simp only [skipSpace, decodeUsers, decodeElems_userValue]

end Json

/-! ### The snapshot round trip -/

/-- The fuel of `coerceLoop` does not matter once it covers the input: the loop
never stops for lack of it. -/
theorem coerceLoop_fuel : ∀ (f g : Nat) (s : GoString), s.length ≤ f → s.length ≤ g →
    coerceLoop f s = coerceLoop g s := by
  intro f
  induction f with
  | zero =>
    intro g s hf _
    match s, hf with
    | [], _ => cases g <;> rfl
  | succ f ih =>
    intro g s hf hg
    match s, hf, hg with
    | [], _, _ => cases g <;> rfl
    | b :: t, hf, hg =>
      match g, hg with
      | g + 1, hg =>
        have hpos := Json.DecodeRune_size_pos b t
        have hl1 : t.length ≤ f := by simpa using hf
        have hl2 : t.length ≤ g := by simpa using hg
        have hd1 : ((b :: t).drop (Utf8.DecodeRune (b :: t)).2).length ≤ f := by
          rw [List.length_drop]
          simp only [List.length_cons]
          omega
        have hd2 : ((b :: t).drop (Utf8.DecodeRune (b :: t)).2).length ≤ g := by
          rw [List.length_drop]
          simp only [List.length_cons]
          omega
        rw [Json.coerceLoop_cons, Json.coerceLoop_cons, ih g t hl1 hl2, ih g _ hd1 hd2]

set_option maxRecDepth 100000 in
/-- The decoder on inputs the encoder does not write: `null`, an empty array
with white space, a `null` element, a key in another case, a key that selects
no field with a nested value, a `null` member; and the three kinds of error. -/
theorem Unmarshal_examples :
    Json.Unmarshal (lit "null") = .ok []
      ∧ Json.Unmarshal (lit " [ ] ") = .ok []
      ∧ Json.Unmarshal (lit ("[null, \x7b\"GENDER\": \"x\", \"other\": [1.5e+3, \x7b\"b\": true\x7d],"
          ++ " \"gender\": null\x7d]")) = .ok [User.zero, demoUser (lit "x")]
      ∧ Json.Unmarshal (lit "[\x7b\"uuid\": \"\\ud83d\\ude00\\ud83d\"\x7d]")
        = .ok [⟨[], [], [], [], [], [], [0xF0, 0x9F, 0x98, 0x80, 0xEF, 0xBF, 0xBD]⟩]
      ∧ Json.Unmarshal (lit "[1]") = .error "json: cannot unmarshal value into Go value"
      ∧ Json.Unmarshal (lit "[\x7b\"gender\": \"x\",\x7d]") = .error "invalid JSON syntax"
      ∧ Json.Unmarshal (lit "[] x") = .error "invalid character after top-level value" :=
  ⟨rfl, rfl, rfl, rfl, rfl, rfl, rfl⟩

theorem coerced_of_wellFormed (u : User) (h : u.wellFormed = true) : u.coerced = u := by
  simp only [User.wellFormed, Bool.and_eq_true] at h
  obtain ⟨⟨⟨⟨⟨⟨h1, h2⟩, h3⟩, h4⟩, h5⟩, h6⟩, h7⟩ := h
  simp only [User.coerced, Json.coerce_of_valid _ h1, Json.coerce_of_valid _ h2,
    Json.coerce_of_valid _ h3, Json.coerce_of_valid _ h4, Json.coerce_of_valid _ h5,
    Json.coerce_of_valid _ h6, Json.coerce_of_valid _ h7]

theorem map_coerced_of_wellFormed (us : List User) (h : ∀ u ∈ us, u.wellFormed = true) :
    us.map User.coerced = us := by
  induction us with
  | nil => rfl
  | cons u rest ih =>
    simp only [List.map]
    rw [coerced_of_wellFormed u (h u (List.mem_cons_self _ _)),
      ih fun v hv => h v (List.mem_cons_of_mem _ hv)]

/-- The empty non-nil slice, written as `[]`, loads as the empty sequence
too. -/
theorem Unmarshal_empty_array : Json.Unmarshal (lit "[]") = .ok [] := rfl

theorem Unmarshal_MarshalIndent (us : List User) :
    ∃ data, Json.MarshalIndent us = .ok data ∧ Json.Unmarshal data = .ok (us.map User.coerced) := by
  cases us with
  | nil => exact ⟨lit "null", rfl, rfl⟩
  | cons u rest => exact ⟨_, rfl, Json.Unmarshal_encode u rest⟩

/-- C7, amended: for every sequence of N records, `saveUsersToFile` followed by
`loadUsersFromFile` on the same store, the write having succeeded, returns
without error N records in the same order, each field being the saved one
coerced to valid UTF-8; when every field of every saved record is valid UTF-8,
the loaded sequence is the saved one, field for field. -/
theorem save_load_roundtrip (st : Store) (us : List User) (hw : st.writable = true) :
    loadUsersFromFile (saveUsersToFile st us) = .ok (us.map User.coerced)
      ∧ (∀ loaded, loadUsersFromFile (saveUsersToFile st us) = .ok loaded →
          loaded.length = us.length)
      ∧ ((∀ u ∈ us, u.wellFormed = true) →
          loadUsersFromFile (saveUsersToFile st us) = .ok us) := by
  obtain ⟨data, hd, hu⟩ := Unmarshal_MarshalIndent us
  obtain ⟨data2, hd2, hst⟩ := saveUsersToFile_writable st us hw
  have hdd : data2 = data := by
    rw [hd] at hd2
    injection hd2 with h
    exact h.symm
  have hload : loadUsersFromFile (saveUsersToFile st us) = .ok (us.map User.coerced) := by
    rw [hst, hdd]
    simp only [loadUsersFromFile, readFile, hu]
  refine ⟨hload, ?_, ?_⟩
  · intro loaded hl
    rw [hload] at hl
    injection hl with h
    rw [← h, List.length_map]
  · intro hv
    rw [hload, map_coerced_of_wellFormed us hv]

/-- C7, amended, at two records with a quote, a backslash, a newline, an
ampersand and a two-byte rune in their fields. -/
theorem save_load_roundtrip_witness :
    emptyStore.writable = true
      ∧ (∀ u ∈ [⟨lit "male", lit "a\"b\\c\nd", [0xC3, 0xA9], lit "x&y", [], [], []⟩,
            demoUser (lit "female")], u.wellFormed = true)
      ∧ loadUsersFromFile (saveUsersToFile emptyStore
            [⟨lit "male", lit "a\"b\\c\nd", [0xC3, 0xA9], lit "x&y", [], [], []⟩,
              demoUser (lit "female")])
          = .ok [⟨lit "male", lit "a\"b\\c\nd", [0xC3, 0xA9], lit "x&y", [], [], []⟩,
              demoUser (lit "female")] :=
  ⟨rfl, by decide,
    (save_load_roundtrip emptyStore
      [⟨lit "male", lit "a\"b\\c\nd", [0xC3, 0xA9], lit "x&y", [], [], []⟩,
        demoUser (lit "female")] rfl).2.2 (by decide)⟩

set_option maxRecDepth 100000 in
/-- C7, refuted: a record whose gender is the byte 0xFF is saved with the
escape of U+FFFD in its place and loads with the three bytes EF BF BD as
gender, not with the byte saved. -/
theorem roundtrip_counterexample :
    emptyStore.writable = true
      ∧ Json.appendString rawUser.Gender = lit "\"\\ufffd\""
      ∧ (saveUsersToFile emptyStore [rawUser]).file
        = .content ((Json.MarshalIndent [rawUser]).toOption.getD [])
      ∧ loadUsersFromFile (saveUsersToFile emptyStore [rawUser])
        = .ok [⟨[0xEF, 0xBF, 0xBD], [], [], [], [], [], []⟩]
      ∧ loadUsersFromFile (saveUsersToFile emptyStore [rawUser]) ≠ .ok [rawUser] := by
  have h : loadUsersFromFile (saveUsersToFile emptyStore [rawUser])
      = .ok [⟨[0xEF, 0xBF, 0xBD], [], [], [], [], [], []⟩] := rfl
  refine ⟨rfl, by decide, rfl, h, ?_⟩
  rw [h]
  intro hne
  injection hne with h1
  exact absurd h1 (by decide)

end RandomUsers
